import Mathlib

/-!
# KnowBook source-ingestion and citation pipeline: a shallow embedding

Definitions are translated from the repository's TypeScript sources
(`src/lib/citations.ts`, `src/components/chat/CitationBadge.tsx`,
`src/components/SourcesList.tsx`, `src/types/index.ts`).  The backend
Python pipeline (chunker, page markers, embedding service, hybrid
retrieval) is not present in the repository snapshot — only its
documentation — so those components are modelled from the spec, each
marked `Modelled from the spec:` in its doc comment.
-/

/-! ## Character classes (JS regex semantics) -/

/-- JS regex `\d`: ASCII decimal digit. -/
def isDigitChar (c : Char) : Bool := c.isDigit

/-- JS line terminators, which `.` (without the `s` flag) does not match:
LF, CR, LINE SEPARATOR, PARAGRAPH SEPARATOR. -/
def isLineTerm (c : Char) : Bool :=
  c = '\n' || c = '\r' || c.toNat = 0x2028 || c.toNat = 0x2029

/-- The character class `[a-zA-Z0-9_-]` of `CITATION_PATTERN`. -/
def isCiteChar (c : Char) : Bool :=
  (c.isAlpha && c.toNat < 128) || c.isDigit || c = '_' || c = '-'

/-! ## Small list utilities shared by the embeddings -/

/-- Consume an exact literal from the front of a list; `some rest` on success. -/
def dropLit : List Char → List Char → Option (List Char)
  | [], l => some l
  | _ :: _, [] => none
  | p :: ps, c :: cs => if c = p then dropLit ps cs else none

/-- Decimal digit character for `d < 10`. -/
def digitChar (d : Nat) : Char := Char.ofNat (48 + d)

/-- Fuel-driven helper for `natDigits`; any `fuel > n` yields the digits of `n`.
Structural recursion keeps it kernel-reducible for `decide`. -/
def natDigitsAux : Nat → Nat → List Char
  | 0, _ => []
  | fuel + 1, n =>
    if n < 10 then [digitChar n]
    else natDigitsAux fuel (n / 10) ++ [digitChar (n % 10)]

/-- Standard decimal rendering of a natural number (list of digit chars). -/
def natDigits (n : Nat) : List Char := natDigitsAux (n + 1) n

/-- `parseInt(_, 10)` on a digit string (leading zeros allowed). -/
def digitsToNat (l : List Char) : Nat :=
  l.foldl (fun n c => 10 * n + (c.toNat - 48)) 0

/-- Decimal string of a natural number. -/
def natStr (n : Nat) : String := (natDigits n).asString

/-! ## `src/lib/citations.ts`

`parseChunkId` matches `/^(.+)_page_(\d+)_chunk_(\d+)$/`.  With the
anchors, a greedy `(.+)` and the digit groups, the regex engine's match
(when one exists) is forced: the third group is the maximal trailing
digit run, `_chunk_` must sit immediately before it, the second group is
the maximal digit run before that, `_page_` immediately before it, and
group one is the (nonempty, line-terminator-free, since `.` excludes
line terminators) remainder.  The embedding therefore parses from the
end of the string. -/

/-- `"_chunk_"` reversed, used by the from-the-end parse. -/
def revChunkLit : List Char := ("_chunk_".toList).reverse

/-- `"_page_"` reversed, used by the from-the-end parse. -/
def revPageLit : List Char := ("_page_".toList).reverse

/-- Core of `parseChunkId`, operating on the reversed character list.
Returns `(sourceId, pageDigits, chunkDigits)` in forward order. -/
def parseChunkIdCore (l : List Char) : Option (List Char × List Char × List Char) :=
  let rev := l.reverse
  let d2r := rev.takeWhile isDigitChar
  if d2r.isEmpty then none else
  match dropLit revChunkLit (rev.dropWhile isDigitChar) with
  | none => none
  | some rest2 =>
    let d1r := rest2.takeWhile isDigitChar
    if d1r.isEmpty then none else
    match dropLit revPageLit (rest2.dropWhile isDigitChar) with
    | none => none
    | some rest4 =>
      let h := rest4.reverse
      if h.isEmpty then none
      else if h.any isLineTerm then none
      else some (h, d1r.reverse, d2r.reverse)

/-- `parseChunkId` from `src/lib/citations.ts`: parse
`{source_id}_page_{N}_chunk_{M}`, returning the triple or `null`. -/
def parseChunkId (s : String) : Option (String × Nat × Nat) :=
  match parseChunkIdCore s.toList with
  | none => none
  | some (h, d1, d2) => some (h.asString, digitsToNat d1, digitsToNat d2)

/-- The deterministic chunk-identifier format
`{sourceId}_page_{pageNumber}_chunk_{chunkIndex}` (spec §4.5, used by the
backend when writing chunks and parsed by `parseChunkId`). -/
def chunkIdStr (sourceId : String) (pageNumber chunkIndex : Nat) : String :=
  sourceId ++ "_page_" ++ natStr pageNumber ++ "_chunk_" ++ natStr chunkIndex

example : chunkIdStr "abc" 12 3 = "abc_page_12_chunk_3" := by decide
example : parseChunkId "abc_page_12_chunk_3" = some ("abc", 12, 3) := by decide
example : parseChunkId "x_page_1_chunk_2_page_3_chunk_4" = some ("x_page_1_chunk_2", 3, 4) := by
  decide
example : parseChunkId "_page_1_chunk_2" = none := by decide

/-! ## `splitTextWithCitations` (`src/lib/citations.ts`)

The global scan of `CITATION_PATTERN =
/\[\[cite:([a-zA-Z0-9_-]+_page_\d+_chunk_\d+)\]\]/g` repeatedly finds the
leftmost match from the end of the previous one.  At a match position the
group must be exactly the maximal `[a-zA-Z0-9_-]` run after `[[cite:`
(the class excludes `]`, so any shorter group would be followed by a
class character, not `]]`), the run must decompose as
`id_page_\d+_chunk_\d+`, and `]]` must follow. -/

/-- The literal `[[cite:` opening a citation marker. -/
def citeOpenLit : List Char := "[[cite:".toList

/-- The literal `]]` closing a citation marker. -/
def citeCloseLit : List Char := "]]".toList

/-- Attempt to match `CITATION_PATTERN` at the head of `l`; on success
return the captured chunk id and the remainder after the match. -/
def tryCiteMatch (l : List Char) : Option (List Char × List Char) :=
  match dropLit citeOpenLit l with
  | none => none
  | some rest1 =>
    let r := rest1.takeWhile isCiteChar
    if (parseChunkIdCore r).isSome then
      match dropLit citeCloseLit (rest1.dropWhile isCiteChar) with
      | none => none
      | some rest2 => some (r, rest2)
    else none

/-- Segment kind of `splitTextWithCitations`: `'text' | 'citation'`. -/
inductive SegKind where
  | text
  | citation
deriving DecidableEq

/-- One segment `{ type, content }` of `splitTextWithCitations`
(content kept as a character list). -/
structure Segment where
  kind : SegKind
  content : List Char
deriving DecidableEq

/-- Fuel-driven scanner for `splitTextWithCitations`: `pending` holds the
text accumulated since the last match, reversed.  With `fuel ≥` the
length of the worklist the fuel is never exhausted; the fuel-0 branch
dumps the remainder as text, which keeps the partition invariant exact. -/
def scanCiteAux : Nat → List Char → List Char → List Segment
  | 0, pending, l =>
    if (pending.reverse ++ l).isEmpty then [] else [⟨SegKind.text, pending.reverse ++ l⟩]
  | fuel + 1, pending, l =>
    match l with
    | [] => if pending.isEmpty then [] else [⟨SegKind.text, pending.reverse⟩]
    | c :: rest =>
      match tryCiteMatch (c :: rest) with
      | some (r, after) =>
        (if pending.isEmpty then [] else [⟨SegKind.text, pending.reverse⟩]) ++
          ⟨SegKind.citation, r⟩ :: scanCiteAux fuel [] after
      | none => scanCiteAux fuel (c :: pending) rest

/-- `splitTextWithCitations` from `src/lib/citations.ts`: split text into
alternating text and citation segments. -/
def splitTextWithCitations (s : String) : List Segment :=
  scanCiteAux s.toList.length [] s.toList

/-- Re-render one segment: a text segment contributes its content
verbatim, a citation segment contributes `[[cite:{content}]]`. -/
def flatSeg (g : Segment) : List Char :=
  match g.kind with
  | SegKind.text => g.content
  | SegKind.citation => citeOpenLit ++ g.content ++ citeCloseLit

example :
    splitTextWithCitations "see [[cite:a_page_1_chunk_0]] ok" =
      [⟨SegKind.text, "see ".toList⟩, ⟨SegKind.citation, "a_page_1_chunk_0".toList⟩,
        ⟨SegKind.text, " ok".toList⟩] := by decide

/-! ## `cleanContent` (`src/components/chat/CitationBadge.tsx`)

```
content.replace(/\n{3,}/g, '\n\n').replace(/[ \t]+/g, ' ')
       .split('\n').map(line => line.trim()).join('\n').trim()
``` -/

/-- The class `[ \t]` (JS horizontal whitespace in `cleanContent`). -/
def isHWS (c : Char) : Bool := c = ' ' || c = '\t'

/-- The ECMAScript `String.prototype.trim` character set: WhiteSpace
(TAB, VT, FF, SP, NBSP, ZWNBSP, Unicode Zs) plus LineTerminator. -/
def isTrimChar (c : Char) : Bool :=
  c.toNat = 0x09 || c.toNat = 0x0A || c.toNat = 0x0B || c.toNat = 0x0C ||
  c.toNat = 0x0D || c.toNat = 0x20 || c.toNat = 0xA0 || c.toNat = 0x1680 ||
  (0x2000 ≤ c.toNat && c.toNat ≤ 0x200A) || c.toNat = 0x2028 || c.toNat = 0x2029 ||
  c.toNat = 0x202F || c.toNat = 0x205F || c.toNat = 0x3000 || c.toNat = 0xFEFF

/-- `replace(/\n{3,}/g, '\n\n')` run-collapsing scanner; `k` counts the
pending newline run. -/
def goNL : Nat → List Char → List Char
  | k, [] => List.replicate (if 3 ≤ k then 2 else k) '\n'
  | k, c :: rest =>
    if c = '\n' then goNL (k + 1) rest
    else List.replicate (if 3 ≤ k then 2 else k) '\n' ++ c :: goNL 0 rest

/-- `replace(/\n{3,}/g, '\n\n')`: collapse runs of 3+ newlines to exactly 2. -/
def collapseNL (l : List Char) : List Char := goNL 0 l

/-- `replace(/[ \t]+/g, ' ')` scanner; the flag records whether we are
inside a horizontal-whitespace run (whose single `' '` is already out). -/
def goWS : Bool → List Char → List Char
  | _, [] => []
  | inRun, c :: rest =>
    if isHWS c then (if inRun then goWS true rest else ' ' :: goWS true rest)
    else c :: goWS false rest

/-- `replace(/[ \t]+/g, ' ')`: collapse horizontal-whitespace runs to one space. -/
def collapseWS (l : List Char) : List Char := goWS false l

/-- Helper for `split('\n')`: first line and remaining lines. -/
def linesAux : List Char → List Char × List (List Char)
  | [] => ([], [])
  | c :: rest =>
    let p := linesAux rest
    if c = '\n' then ([], p.1 :: p.2) else (c :: p.1, p.2)

/-- JS `split('\n')` (always at least one line; `"".split` is `[""]`). -/
def splitLines (l : List Char) : List (List Char) := (linesAux l).1 :: (linesAux l).2

/-- JS `join('\n')`. -/
def joinNL : List (List Char) → List Char
  | [] => []
  | [a] => a
  | a :: b :: rest => a ++ '\n' :: joinNL (b :: rest)

/-- Left half of `trim()`. -/
def trimL (l : List Char) : List Char := l.dropWhile isTrimChar

/-- Right half of `trim()`: drop trailing trim characters. -/
def dropEndTrim : List Char → List Char
  | [] => []
  | c :: rest =>
    let r := dropEndTrim rest
    if r.isEmpty && isTrimChar c then [] else c :: r

/-- JS `trim()`. -/
def jsTrim (l : List Char) : List Char := dropEndTrim (trimL l)

/-- `cleanContent` pipeline on character lists. -/
def cleanContentL (l : List Char) : List Char :=
  jsTrim (joinNL ((splitLines (collapseWS (collapseNL l))).map jsTrim))

/-- `cleanContent` from `CitationBadge.tsx`. -/
def cleanContent (s : String) : String := (cleanContentL s.toList).asString

example : cleanContent "a\t\t b\n\n\n\nc" = "a b\n\nc" := by decide
example : cleanContent "" = "" := by decide
example : cleanContent "a\n \n \n \nb" = "a\n\n\n\nb" := by decide

/-- Scanner: does the list contain three consecutive newlines? -/
def hasNNN : List Char → Bool
  | c1 :: c2 :: c3 :: rest =>
    (c1 = '\n' && c2 = '\n' && c3 = '\n') || hasNNN (c2 :: c3 :: rest)
  | _ => false

/-- Is the head of the list the given character? -/
def headIs (x : Char) : List Char → Bool
  | d :: _ => d = x
  | [] => false

/-- Scanner for the collapsed-whitespace output property: no tab
anywhere and no two adjacent spaces. -/
def okWS : List Char → Bool
  | [] => true
  | c :: rest => !(c = '\t') && !(c = ' ' && headIs ' ' rest) && okWS rest

/-- Drop trailing empty lines from a list of lines (used to describe the
effect of the final `trim()` on the joined lines). -/
def dropEndEmpty : List (List Char) → List (List Char)
  | [] => []
  | a :: rest =>
    let r := dropEndEmpty rest
    if r.isEmpty && a.isEmpty then [] else a :: r

/-! ## Source lifecycle status

The data-model declaration in the Module 5 document (`src/unnamed/part_000`,
`interface Source`) declares
`status: 'uploaded' | 'processing' | 'embedding' | 'ready' | 'failed' | 'error'`;
the frontend type module (`src/unnamed/part_001`) narrows this to the five
values without `'error'`. -/

/-- The source status union as declared in the Module 5 data model
(`src/unnamed/part_000`, lines 162–181), including the legacy `'error'`
member. -/
inductive SourceStatus where
  | uploaded
  | processing
  | embedding
  | ready
  | failed
  | error
deriving DecidableEq, Repr, Fintype

/-- All declared status values, in declaration order. -/
def sourceStatusValues : List SourceStatus :=
  [SourceStatus.uploaded, SourceStatus.processing, SourceStatus.embedding,
    SourceStatus.ready, SourceStatus.failed, SourceStatus.error]

/-- The status strings of the spec's state machine (§4.6), the claimed
"exactly five" set. -/
def claimedStatusValues : List SourceStatus :=
  [SourceStatus.uploaded, SourceStatus.processing, SourceStatus.embedding,
    SourceStatus.ready, SourceStatus.failed]

/-- Modelled from the spec: the Ingestion Orchestrator's status
transition relation (§4.6) — the orchestrator itself is backend code not
present in the repository snapshot.  `uploaded → processing →
(embedding | ready) → ready`, with `failed` reachable from `processing`
or `embedding`; `ready` and `failed` are terminal, and the legacy
`error` member takes part in no transition. -/
def statusStep : SourceStatus → SourceStatus → Bool
  | SourceStatus.uploaded, SourceStatus.processing => true
  | SourceStatus.processing, SourceStatus.embedding => true
  | SourceStatus.processing, SourceStatus.ready => true
  | SourceStatus.processing, SourceStatus.failed => true
  | SourceStatus.embedding, SourceStatus.ready => true
  | SourceStatus.embedding, SourceStatus.failed => true
  | _, _ => false

/-! ## Status rendering (`src/components/SourcesList.tsx`)

`getStatusIndicator` and `getStatusText` switch on the status string;
the indicator is an icon element with a phosphor icon, size 14 and a
color (plus spin animation for the spinner). -/

/-- The phosphor icon chosen by `getStatusIndicator`. -/
inductive StatusIcon where
  | check
  | spinner
  | warning
  | clock
deriving DecidableEq, Repr

/-- The rendered indicator: icon, size and className. -/
structure IndicatorSpec where
  icon : StatusIcon
  size : Nat
  className : String
deriving DecidableEq, Repr

/-- `getStatusIndicator` from `SourcesList.tsx`. -/
def getStatusIndicator (status : String) : IndicatorSpec :=
  if status = "ready" then ⟨StatusIcon.check, 14, "text-green-600"⟩
  else if status = "processing" || status = "embedding" then
    ⟨StatusIcon.spinner, 14, "text-blue-600 animate-spin"⟩
  else if status = "failed" then ⟨StatusIcon.warning, 14, "text-red-600"⟩
  else ⟨StatusIcon.clock, 14, "text-gray-600"⟩

/-- `getStatusText` from `SourcesList.tsx`. -/
def getStatusText (status : String) : String :=
  if status = "ready" then "Ready"
  else if status = "processing" then "Processing..."
  else if status = "embedding" then "Embedding..."
  else if status = "failed" then "Failed"
  else "Queued"

/-- The status line rendered for one source in the list: indicator plus
status text. -/
def renderedStatus (status : String) : IndicatorSpec × String :=
  (getStatusIndicator status, getStatusText status)

/-! ## Spec-modelled backend: Token Counter and Chunker

The backend utilities `embedding_utils.py` / `chunking.py` are not in
the repository snapshot; they are modelled from spec §4.3 and §4.5 and
the Module 5 document (target 200 tokens, 20% margin, sentence-boundary
splitting, oversized sentences kept whole). -/

/-- Whitespace for word/token boundaries. -/
def isWSChar (c : Char) : Bool := c = ' ' || c = '\t' || c = '\n' || c = '\r'

/-- Word-splitting scanner (`acc` is the current word, reversed). -/
def wordsAux : List Char → List Char → List (List Char)
  | acc, [] => if acc.isEmpty then [] else [acc.reverse]
  | acc, c :: r =>
    if isWSChar c then (if acc.isEmpty then wordsAux [] r else acc.reverse :: wordsAux [] r)
    else wordsAux (c :: acc) r

/-- Whitespace-separated words of a text. -/
def wordsOf (l : List Char) : List (List Char) := wordsAux [] l

/-- Modelled from the spec: the Token Counter (§4.3) — deterministic and
roughly proportional to word count; modelled as the whitespace-separated
word count. -/
def countTokens (l : List Char) : Nat := (wordsOf l).length

/-- `CHUNK_TOKEN_TARGET` (Module 5 document). -/
def chunkTokenTarget : Nat := 200

/-- Upper chunk bound: target plus the 20% margin, i.e. 240. -/
def chunkMaxTokens : Nat := chunkTokenTarget + chunkTokenTarget * 20 / 100

/-- Lower chunk bound: target minus the 20% margin, i.e. 160. -/
def chunkMinTokens : Nat := chunkTokenTarget - chunkTokenTarget * 20 / 100

/-- Sentence-ending punctuation of the boundary heuristic (§4.5). -/
def isSentPunct (c : Char) : Bool := c = '.' || c = '!' || c = '?'

/-- Modelled from the spec: the boundary test after sentence-ending
punctuation — whitespace followed by a capital letter, or end of text. -/
def boundaryAfter (r : List Char) : Bool :=
  match r with
  | [] => true
  | d :: _ =>
    isWSChar d &&
      (match r.dropWhile isWSChar with
       | [] => true
       | e :: _ => e.isUpper)

/-- Sentence-splitting scanner (`acc` is the current sentence, reversed).
The whitespace after a boundary is carried into the next sentence; it is
ignored by the word-based token count. -/
def sentAux : List Char → List Char → List (List Char)
  | acc, [] => if acc.isEmpty then [] else [acc.reverse]
  | acc, c :: r =>
    if isSentPunct c && boundaryAfter r then (c :: acc).reverse :: sentAux [] r
    else sentAux (c :: acc) r

/-- Modelled from the spec: split page text into sentences (§4.5). -/
def splitSentences (l : List Char) : List (List Char) := sentAux [] l

/-- Greedy sentence accumulation (§4.5): close the chunk as soon as
adding the next sentence would exceed `chunkMaxTokens`.  A chunk is a
list of sentences; `acc` is the open chunk, reversed, with `tok` its
token sum. -/
def chunkAux : List (List Char) → Nat → List (List Char) → List (List (List Char))
  | acc, _, [] => if acc.isEmpty then [] else [acc.reverse]
  | acc, tok, s :: rest =>
    if acc.isEmpty then chunkAux [s] (countTokens s) rest
    else if chunkMaxTokens < tok + countTokens s then
      acc.reverse :: chunkAux [s] (countTokens s) rest
    else chunkAux (s :: acc) (tok + countTokens s) rest

/-- Modelled from the spec: the Chunker on one page (§4.5). -/
def chunkPage (l : List Char) : List (List (List Char)) := chunkAux [] 0 (splitSentences l)

/-- Token count of a chunk: the sum over its sentences. -/
def chunkTokens (g : List (List Char)) : Nat := (g.map countTokens).sum

/-- Token count of a chunk's first sentence (0 for the empty chunk). -/
def headTok (g : List (List Char)) : Nat :=
  match g with
  | s :: _ => countTokens s
  | [] => 0

/-- Is this chunk a single sentence that alone exceeds the upper bound? -/
def isOversizedSingle (g : List (List Char)) : Bool :=
  match g with
  | [s] => chunkMaxTokens < countTokens s
  | _ => false

/-! ## Spec-modelled backend: Page-Marker Formatter (§4.2)

`page_markers.py` is not in the repository snapshot.  Delimiter lines
follow the Module 5 document: `=== TYPE PAGE N of TOTAL ===`.  The
delimiter is parsed from the end of the line (maximal digit runs, fixed
literals), which is forced just as for `parseChunkId`. -/

/-- `" ==="` reversed. -/
def revEndLit : List Char := (" ===".toList).reverse

/-- `" of "` reversed. -/
def revOfLit : List Char := (" of ".toList).reverse

/-- `" PAGE "` reversed. -/
def revPageWordLit : List Char := (" PAGE ".toList).reverse

/-- The leading marker of a delimiter line. -/
def delimMark : List Char := "=== ".toList

/-- Modelled from the spec: one delimiter line `=== TYPE PAGE N of TOTAL ===`. -/
def delimLine (ty : List Char) (n total : Nat) : List Char :=
  delimMark ++ ty ++ " PAGE ".toList ++ natDigits n ++ " of ".toList ++
    natDigits total ++ " ===".toList

/-- Does a line start with `=== `? -/
def startsDelimMark (l : List Char) : Bool := (dropLit delimMark l).isSome

/-- Modelled from the spec: parse one delimiter line, from the end;
returns `(type, pageNumber, total)`. -/
def parseDelim (l : List Char) : Option (List Char × Nat × Nat) :=
  let rev := l.reverse
  match dropLit revEndLit rev with
  | none => none
  | some r1 =>
    let dtr := r1.takeWhile isDigitChar
    if dtr.isEmpty then none else
    match dropLit revOfLit (r1.dropWhile isDigitChar) with
    | none => none
    | some r2 =>
      let dnr := r2.takeWhile isDigitChar
      if dnr.isEmpty then none else
      match dropLit revPageWordLit (r2.dropWhile isDigitChar) with
      | none => none
      | some r3 =>
        match dropLit delimMark r3.reverse with
        | none => none
        | some ty => some (ty, digitsToNat dnr.reverse, digitsToNat dtr.reverse)

/-- Modelled from the spec: the metadata header lines of a formatted
document (source type, page count, character count, and the `# ---`
terminator noted in the Module 5 chunking description; the processing
timestamp is left out to keep the formatter deterministic). -/
def headerLines (ty : List Char) (pages : List (Nat × List Char)) : List (List Char) :=
  ["KNOWBOOK PROCESSED TEXT".toList,
    "TYPE: ".toList ++ ty,
    "PAGES: ".toList ++ natDigits pages.length,
    "CHARS: ".toList ++ natDigits (pages.map (fun p => p.2.length)).sum,
    "# ---".toList]

/-- The lines of one formatted page: its delimiter line, then its text. -/
def pageLines (ty : List Char) (total : Nat) (p : Nat × List Char) : List (List Char) :=
  delimLine ty p.1 total :: splitLines p.2

/-- Modelled from the spec: `format(pages, sourceType)` (§4.2). -/
def formatPages (ty : List Char) (pages : List (Nat × List Char)) : List Char :=
  joinNL (headerLines ty pages ++ (pages.map (pageLines ty pages.length)).flatten)

/-- `ParseError` variants of the page-marker parser (§4.2/§7). -/
inductive PMError where
  | badDelim (line : List Char)
  | nonMonotonic
  | strayText (line : List Char)
deriving DecidableEq

/-- The page number of the currently open page (0 before any page). -/
def curNo : Option (Nat × List (List Char)) → Nat
  | none => 0
  | some (n, _) => n

/-- Close the currently open page (its lines are accumulated reversed). -/
def closePage : Option (Nat × List (List Char)) → List (Nat × List Char)
  | none => []
  | some (n, accRev) => [(n, joinNL accRev.reverse)]

/-- Modelled from the spec: the body parser.  Each `=== `-marked line
must parse as a delimiter with a strictly larger page number; other
lines accumulate into the open page. -/
def pmBody : Option (Nat × List (List Char)) → List (List Char) →
    Except PMError (List (Nat × List Char))
  | cur, [] => .ok (closePage cur)
  | cur, line :: rest =>
    if startsDelimMark line then
      match parseDelim line with
      | none => .error (PMError.badDelim line)
      | some (_, n, _) =>
        if curNo cur < n then
          match pmBody (some (n, [])) rest with
          | .error e => .error e
          | .ok segs => .ok (closePage cur ++ segs)
        else .error PMError.nonMonotonic
    else
      match cur with
      | none => .error (PMError.strayText line)
      | some (n, accRev) => pmBody (some (n, line :: accRev)) rest

/-- Modelled from the spec: `parse(formatted)` (§4.2) — header lines are
everything before the first `=== `-marked line; the rest is page bodies. -/
def parsePages (doc : List Char) : Except PMError (List Char × List (Nat × List Char)) :=
  let ls := splitLines doc
  let hdr := ls.takeWhile (fun l => !startsDelimMark l)
  let body := ls.dropWhile (fun l => !startsDelimMark l)
  match pmBody none body with
  | .error e => .error e
  | .ok segs => .ok (joinNL hdr, segs)

example :
    parsePages (formatPages "TEXT".toList [(1, "hello\nworld".toList), (2, "bye".toList)]) =
      .ok (joinNL (headerLines "TEXT".toList [(1, "hello\nworld".toList), (2, "bye".toList)]),
        [(1, "hello\nworld".toList), (2, "bye".toList)]) := by rfl

/-! ## Spec-modelled backend: Embedding Client, Vector Store, Ingestion (§4.6–4.8)

`embedding_service.py` / `pinecone_service.py` are not in the repository
snapshot.  The provider is an abstract fallible function; vectors are
buffered in memory and upserted in a single bulk operation, never
streamed. -/

/-- `ProviderError` (§4.7): embedding API failure. -/
inductive ProviderError where
  | apiFailure
deriving DecidableEq

/-- An embedding provider: texts in, vectors (or a provider error) out. -/
def Provider : Type := List (List Char) → Except ProviderError (List (List Int))

/-- One stored vector: id = chunk id, owning source id, dense vector. -/
structure VecEntry where
  vid : String
  sourceId : String
  vec : List Int
deriving DecidableEq

/-- The fixed embedding batch size (Module 5 document: 100 per batch). -/
def embedBatchSize : Nat := 100

/-- Fuel-driven batching of a list into `embedBatchSize`-sized batches. -/
def batchAux : Nat → List (List Char) → List (List (List Char))
  | 0, _ => []
  | _ + 1, [] => []
  | fuel + 1, l => l.take embedBatchSize :: batchAux fuel (l.drop embedBatchSize)

/-- Split texts into embedding batches. -/
def batches (l : List (List Char)) : List (List (List Char)) := batchAux l.length l

/-- Embed a list of batches in order; any failing batch fails the whole
call (§4.7). -/
def embedBatches (provider : Provider) : List (List (List Char)) →
    Except ProviderError (List (List Int))
  | [] => .ok []
  | b :: rest =>
    match provider b with
    | .error e => .error e
    | .ok vs =>
      match embedBatches provider rest with
      | .error e => .error e
      | .ok rest' => .ok (vs ++ rest')

/-- Modelled from the spec: `embed(texts)` (§4.7) — batched at
`embedBatchSize`, order-preserving, all-or-nothing. -/
def embedAll (provider : Provider) (texts : List (List Char)) :
    Except ProviderError (List (List Int)) :=
  embedBatches provider (batches texts)

/-- Outcome of the embedding stage: source status and vector store contents. -/
structure EmbedOutcome where
  status : SourceStatus
  store : List VecEntry
deriving DecidableEq

/-- Modelled from the spec: the embedding stage of ingestion
(`EmbeddingService.process_embeddings`, §4.6/§4.7): embed all chunk
texts, buffering every vector in memory; on success do one bulk upsert
of the complete set, on `ProviderError` mark the source `failed` and
leave the store untouched. -/
def processEmbeddings (provider : Provider) (store : List VecEntry) (sourceId : String)
    (chunks : List (String × List Char)) : EmbedOutcome :=
  match embedAll provider (chunks.map Prod.snd) with
  | .error _ => ⟨SourceStatus.failed, store⟩
  | .ok vecs =>
    ⟨SourceStatus.ready,
      store ++ (chunks.zip vecs).map (fun cv => ⟨cv.1.1, sourceId, cv.2⟩)⟩

/-- The embedding threshold (§4.6): sources under 1000 tokens are never
chunked or embedded. -/
def embeddingThreshold : Nat := 1000

/-- Modelled from the spec: the orchestrator step after processing
(§4.6) — below the threshold the source goes straight to `ready` with
no vectors stored; at or above it the embedding stage runs. -/
def ingestAfterProcessing (provider : Provider) (store : List VecEntry) (sourceId : String)
    (totalTokens : Nat) (chunks : List (String × List Char)) : EmbedOutcome :=
  if totalTokens < embeddingThreshold then ⟨SourceStatus.ready, store⟩
  else processEmbeddings provider store sourceId chunks

/-! ## Spec-modelled backend: Retrieval Engine (§4.9)

`source_search_executor.py` is not in the repository snapshot; the
Module 6 document describes it: sources under 1000 tokens return all
chunks; otherwise fuzzy keyword search and semantic search are combined,
deduplicated by chunk id and capped.  Keyword scoring is token overlap
(§9 allows any edit-distance or token-overlap scoring). -/

/-- A chunk as held by the Retrieval Engine (fields as in the Module 5
`Chunk` interface). -/
structure RagChunk where
  chunk_id : String
  text : List Char
  page_number : Nat
  source_id : String
  token_count : Nat
deriving DecidableEq

/-- A source as seen by retrieval: stored token count, chunk list, and
the processed full text (for sources that were never chunked). -/
structure RagSource where
  id : String
  token_count : Nat
  chunks : List RagChunk
  fullText : List Char
deriving DecidableEq

/-- The single full-text chunk returned for a source that was never
chunked (always under the threshold). -/
def fullTextChunk (src : RagSource) : RagChunk :=
  ⟨chunkIdStr src.id 1 0, src.fullText, 1, src.id, src.token_count⟩

/-- Token-overlap keyword score of a chunk against a query. -/
def kwScore (query text : List Char) : Nat :=
  ((wordsOf query).filter (fun w => (wordsOf text).contains w)).length

/-- Keyword search: chunks with a positive overlap score. -/
def keywordSearch (chunks : List RagChunk) (query : List Char) : List (String × Nat) :=
  chunks.filterMap (fun c =>
    let s := kwScore query c.text
    if 0 < s then some (c.chunk_id, s) else none)

/-- Descending comparison on scored results. -/
def scoreLE (x y : String × Nat) : Bool := y.2 ≤ x.2

/-- Descending comparison on integer-scored results. -/
def scoreLEInt (x y : String × Int) : Bool := y.2 ≤ x.2

/-- Ranked keyword result ids (best score first). -/
def kwIds (src : RagSource) (query : List Char) : List String :=
  (List.insertionSort (fun x y => scoreLE x y = true) (keywordSearch src.chunks query)).map
    Prod.fst

/-- Dot product of two dense vectors. -/
def dot (a b : List Int) : Int := (List.zipWith (· * ·) a b).sum

/-- Modelled from the spec: the Vector Store query (§4.8) — score every
vector in the namespace filtered to this source id. -/
def vqueryAll (store : List VecEntry) (sourceId : String) (qv : List Int) :
    List (String × Int) :=
  (store.filter (fun e => e.sourceId = sourceId)).map (fun e => (e.vid, dot e.vec qv))

/-- Ranked semantic result ids: embed the query, query the store, top-K
by score.  On a provider error the engine degrades to keyword-only
(§4.9), i.e. the semantic list is empty. -/
def semIds (provider : Provider) (store : List VecEntry) (src : RagSource)
    (query : List Char) (maxResults : Nat) : List String :=
  match provider [query] with
  | .error _ => []
  | .ok qvs =>
    match qvs with
    | [] => []
    | qv :: _ =>
      ((List.insertionSort (fun x y => scoreLEInt x y = true)
        (vqueryAll store src.id qv)).take maxResults).map Prod.fst

/-- Does this id appear in both ranked result lists? -/
def bothIn (kw sem : List String) (id : String) : Bool := kw.contains id && sem.contains id

/-- Best (lowest) rank of an id across the two lists. -/
def bestPos (kw sem : List String) (id : String) : Nat :=
  if kw.contains id then
    (if sem.contains id then min (kw.indexOf id) (sem.indexOf id) else kw.indexOf id)
  else sem.indexOf id

/-- Combined rank key: better (lower) best position first; on a tie the
id found by both searches ranks first. -/
def fuseKey (kw sem : List String) (id : String) : Nat :=
  2 * bestPos kw sem id + (if bothIn kw sem id then 0 else 1)

/-- Combined-rank comparison. -/
def fuseLE (kw sem : List String) (a b : String) : Bool :=
  fuseKey kw sem a ≤ fuseKey kw sem b

/-- Union the two result lists, deduplicate by chunk id, order by
combined rank. -/
def dedupFused (kw sem : List String) : List String :=
  List.insertionSort (fun a b => fuseLE kw sem a b = true) ((kw ++ sem).dedup)

/-- The final ranked, deduplicated, capped id list of the hybrid path. -/
def fuseIds (kw sem : List String) (maxResults : Nat) : List String :=
  (dedupFused kw sem).take maxResults

/-- Modelled from the spec: `retrieve(sourceId, query, maxResults)`
(§4.9).  Small sources return everything, ignoring query and cap;
otherwise the hybrid keyword+semantic union is deduplicated and capped. -/
def retrieve (provider : Provider) (store : List VecEntry) (src : RagSource)
    (query : List Char) (maxResults : Nat) : List RagChunk :=
  if src.token_count < embeddingThreshold then
    (if src.chunks.isEmpty then [fullTextChunk src] else src.chunks)
  else
    (fuseIds (kwIds src query) (semIds provider store src query maxResults) maxResults).filterMap
      (fun i => src.chunks.find? (fun c => c.chunk_id = i))

/-! ## Concrete inputs used by witnesses and counterexamples -/

/-- A provider whose every call fails with a `ProviderError`. -/
def failProvider : Provider := fun _ => .error ProviderError.apiFailure

/-- A provider returning a 1-dimensional vector per input text. -/
def okProvider : Provider := fun b => .ok (b.map (fun _ => [1]))

/-- `n` capitalised one-letter words separated by spaces. -/
def capWords (n : Nat) : String := String.intercalate " " (List.replicate n "A")

/-- A two-sentence page (60 then 181 words) driving the chunker below
its claimed lower bound: the first chunk closes at 60 tokens because
60 + 181 > 240. -/
def chunkDemoText : String := capWords 60 ++ ". " ++ capWords 181 ++ "."

/-- Demo chunk 1 of the hybrid-search witness source. -/
def demoChunk1 : RagChunk := ⟨"s1_page_1_chunk_0", "alpha beta gamma".toList, 1, "s1", 3⟩

/-- Demo chunk 2 of the hybrid-search witness source. -/
def demoChunk2 : RagChunk := ⟨"s1_page_1_chunk_1", "delta alpha".toList, 1, "s1", 2⟩

/-- A source at the embedding threshold, for the hybrid-search witness. -/
def demoSourceBig : RagSource := ⟨"s1", 1200, [demoChunk1, demoChunk2], "full".toList⟩

/-- A small source (under the threshold), for the bypass witness. -/
def demoSourceSmall : RagSource := ⟨"s2", 120, [], "tiny full text".toList⟩

/-- Stored vectors of the demo source. -/
def demoStore : List VecEntry :=
  [⟨"s1_page_1_chunk_0", "s1", [3]⟩, ⟨"s1_page_1_chunk_1", "s1", [1]⟩]

/-- A page list whose single page's text is itself a well-formed
delimiter line — the adversarial input breaking the naive round-trip. -/
def pmBadPages : List (Nat × List Char) := [(1, "=== TEXT PAGE 2 of 2 ===".toList)]

/-! # Theorems -/

/-! ## Generic helper lemmas -/

theorem dropLit_eq : ∀ (p l r : List Char), dropLit p l = some r → l = p ++ r
  | [], l, r, h => by simpa [dropLit] using h
  | p :: ps, [], r, h => by simp [dropLit] at h
  | p :: ps, c :: cs, r, h => by
    by_cases hc : c = p
    · subst hc
      simp only [dropLit, if_pos rfl] at h
      simpa using dropLit_eq ps cs r h
    · simp [dropLit, hc] at h

theorem dropLit_self : ∀ (p l : List Char), dropLit p (p ++ l) = some l
  | [], l => rfl
  | p :: ps, l => by simp [dropLit, dropLit_self ps l]

theorem takeWhile_append_stop {α : Type} (p : α → Bool) :
    ∀ (l1 : List α) (c : α) (t : List α), (∀ x ∈ l1, p x = true) → p c = false →
      (l1 ++ c :: t).takeWhile p = l1 ∧ (l1 ++ c :: t).dropWhile p = c :: t
  | [], c, t, _, hc => by simp [List.takeWhile, List.dropWhile, hc]
  | x :: xs, c, t, h1, hc => by
    have hx : p x = true := h1 x (by simp)
    have ih := takeWhile_append_stop p xs c t (fun y hy => h1 y (by simp [hy])) hc
    simp [List.takeWhile, List.dropWhile, hx, ih.1, ih.2]

theorem takeWhile_all {α : Type} (p : α → Bool) :
    ∀ (l : List α), (∀ x ∈ l, p x = true) →
      l.takeWhile p = l ∧ l.dropWhile p = []
  | [], _ => by simp
  | x :: xs, h => by
    have hx : p x = true := h x (by simp)
    have ih := takeWhile_all p xs (fun y hy => h y (by simp [hy]))
    simp [List.takeWhile, List.dropWhile, hx, ih.1, ih.2]

/-! ## Decimal digits -/

theorem digitChar_isDigit {d : Nat} (h : d < 10) : isDigitChar (digitChar d) = true := by
  interval_cases d <;> decide

theorem digitChar_toNat {d : Nat} (h : d < 10) : (digitChar d).toNat = 48 + d := by
  interval_cases d <;> decide

theorem digitsToNat_append_one (l : List Char) (c : Char) :
    digitsToNat (l ++ [c]) = 10 * digitsToNat l + (c.toNat - 48) := by
  simp [digitsToNat, List.foldl_append]

theorem natDigitsAux_spec :
    ∀ (fuel n : Nat), n < fuel →
      natDigitsAux fuel n ≠ [] ∧ (∀ c ∈ natDigitsAux fuel n, isDigitChar c = true) ∧
        digitsToNat (natDigitsAux fuel n) = n
  | 0, n, h => absurd h (Nat.not_lt_zero n)
  | fuel + 1, n, h => by
    by_cases h10 : n < 10
    · refine ⟨by simp [natDigitsAux, h10], ?_, ?_⟩
      · intro c hc
        simp [natDigitsAux, h10] at hc
        subst hc
        exact digitChar_isDigit h10
      · simp [natDigitsAux, h10, digitsToNat, digitChar_toNat h10]
    · have hdiv : n / 10 < fuel := by
        have h1 : n / 10 < n := Nat.div_lt_self (by omega) (by omega)
        omega
      obtain ⟨hne, hdig, hval⟩ := natDigitsAux_spec fuel (n / 10) hdiv
      refine ⟨by simp [natDigitsAux, h10], ?_, ?_⟩
      · intro c hc
        simp [natDigitsAux, h10] at hc
        rcases hc with hc | hc
        · exact hdig c hc
        · subst hc
          exact digitChar_isDigit (Nat.mod_lt _ (by omega))
      · have hmod : n % 10 < 10 := Nat.mod_lt _ (by omega)
        simp only [natDigitsAux, h10, if_false]
        rw [digitsToNat_append_one, hval, digitChar_toNat hmod]
        omega

theorem natDigits_ne_nil (n : Nat) : natDigits n ≠ [] :=
  (natDigitsAux_spec (n + 1) n (Nat.lt_succ_self n)).1

theorem natDigits_all_digits (n : Nat) : ∀ c ∈ natDigits n, isDigitChar c = true :=
  (natDigitsAux_spec (n + 1) n (Nat.lt_succ_self n)).2.1

theorem digitsToNat_natDigits (n : Nat) : digitsToNat (natDigits n) = n :=
  (natDigitsAux_spec (n + 1) n (Nat.lt_succ_self n)).2.2

/-! ## C9: failed vs processing rendering -/

/-- C9: in the status listing, a source with status `failed` renders a
distinct indicator (warning icon, red) and distinct status text
(`"Failed"`) from one with status `processing` (spinner, blue,
`"Processing..."`), so the two are always distinguishable. -/
theorem failed_distinct_from_processing :
    renderedStatus "failed" ≠ renderedStatus "processing" ∧
    getStatusIndicator "failed" ≠ getStatusIndicator "processing" ∧
    getStatusText "failed" ≠ getStatusText "processing" := by
  refine ⟨?_, ?_, ?_⟩ <;> decide

/-! ## C3: the status value set and the state machine -/

/-- C3 counterexample: the data-model declaration cited by the claim
(`src/unnamed/part_000` lines 162–181) declares `'error'` as a sixth
status value, so the set of declared status values is not exactly
`{uploaded, processing, embedding, ready, failed}`. -/
theorem status_values_counterexample :
    SourceStatus.error ∈ sourceStatusValues ∧ SourceStatus.error ∉ claimedStatusValues := by
  decide

/-- C3 (amended): the declared status union has exactly the six values
`uploaded, processing, embedding, ready, failed, error` (the frontend
type module narrows it to the five without `error`); the spec-modelled
transition relation moves only along
`uploaded → processing → (embedding | ready) → ready`, `failed` is
reachable only from `processing` or `embedding`, and `ready`, `failed`
(and the legacy `error`) are terminal. -/
theorem status_machine_amended :
    (∀ s : SourceStatus, s ∈ sourceStatusValues) ∧
    sourceStatusValues.Nodup ∧ sourceStatusValues.length = 6 ∧
    (∀ s t : SourceStatus, statusStep s t = true →
      (s = SourceStatus.uploaded ∧ t = SourceStatus.processing) ∨
      (s = SourceStatus.processing ∧ t = SourceStatus.embedding) ∨
      (s = SourceStatus.processing ∧ t = SourceStatus.ready) ∨
      (s = SourceStatus.processing ∧ t = SourceStatus.failed) ∨
      (s = SourceStatus.embedding ∧ t = SourceStatus.ready) ∨
      (s = SourceStatus.embedding ∧ t = SourceStatus.failed)) ∧
    (∀ s t : SourceStatus, statusStep s t = true → t = SourceStatus.failed →
      s = SourceStatus.processing ∨ s = SourceStatus.embedding) ∧
    (∀ t, statusStep SourceStatus.ready t = false) ∧
    (∀ t, statusStep SourceStatus.failed t = false) ∧
    (∀ t, statusStep SourceStatus.error t = false) := by
  refine ⟨?_, ?_, ?_, ?_, ?_, ?_, ?_, ?_⟩ <;> decide

/-- C3 witness: the amended theorem applied at the concrete transition
`processing → failed`. -/
theorem status_machine_amended_witness :
    statusStep SourceStatus.processing SourceStatus.failed = true ∧
    (SourceStatus.processing = SourceStatus.processing ∨
      SourceStatus.processing = SourceStatus.embedding) :=
  ⟨by decide, status_machine_amended.2.2.2.2.1 SourceStatus.processing SourceStatus.failed
    (by decide) (by decide)⟩

/-! ## C5: small-source bypass -/

/-- C5: for a source whose total token count is below the embedding
threshold (1000), the ingestion step stores zero vectors (the vector
store is unchanged and the source goes straight to `ready`), and
`retrieve` returns the source's full text — all of its chunks, or the
single full-text chunk if it was never chunked — for every query and
every `maxResults`, ignoring both (and the provider and store as well). -/
theorem small_source_bypass (provider provider2 : Provider) (store store2 : List VecEntry)
    (sourceId : String) (totalTokens : Nat) (chunks : List (String × List Char))
    (src : RagSource) (query query2 : List Char) (maxResults maxResults2 : Nat)
    (hIngest : totalTokens < embeddingThreshold)
    (hSrc : src.token_count < embeddingThreshold) :
    (ingestAfterProcessing provider store sourceId totalTokens chunks).store = store ∧
    (ingestAfterProcessing provider store sourceId totalTokens chunks).status =
      SourceStatus.ready ∧
    retrieve provider store src query maxResults =
      (if src.chunks.isEmpty then [fullTextChunk src] else src.chunks) ∧
    retrieve provider store src query maxResults =
      retrieve provider2 store2 src query2 maxResults2 := by
  refine ⟨?_, ?_, ?_, ?_⟩ <;> simp [ingestAfterProcessing, retrieve, hIngest, hSrc]

/-- C5 witness: the bypass at a concrete small source (120 tokens, never
chunked): no vectors stored and the single full-text chunk returned,
with query and cap ignored. -/
theorem small_source_bypass_witness :
    (ingestAfterProcessing okProvider demoStore "s2" 120 []).store = demoStore ∧
    (ingestAfterProcessing okProvider demoStore "s2" 120 []).status = SourceStatus.ready ∧
    retrieve okProvider demoStore demoSourceSmall "anything".toList 5 =
      (if demoSourceSmall.chunks.isEmpty then [fullTextChunk demoSourceSmall]
        else demoSourceSmall.chunks) ∧
    retrieve okProvider demoStore demoSourceSmall "anything".toList 5 =
      retrieve failProvider [] demoSourceSmall "other".toList 1 := by
  exact small_source_bypass okProvider failProvider demoStore [] "s2" 120 [] demoSourceSmall
    "anything".toList "other".toList 5 1 (by decide) (by decide)

/-! ## C7: provider failure is all-or-nothing -/

/-- C7: when the Embedding Client fails with a `ProviderError` during
the embedding stage, the source transitions to `failed` and the vector
store is left exactly as it was — no partial vector set; on success the
complete buffered set is stored in one bulk upsert. -/
theorem embedding_all_or_nothing (provider : Provider) (store : List VecEntry)
    (sourceId : String) (chunks : List (String × List Char))
    (e : ProviderError) (hfail : embedAll provider (chunks.map Prod.snd) = .error e) :
    processEmbeddings provider store sourceId chunks = ⟨SourceStatus.failed, store⟩ ∧
    (∀ (provider2 : Provider) (vs : List (List Int)),
      embedAll provider2 (chunks.map Prod.snd) = .ok vs →
      processEmbeddings provider2 store sourceId chunks =
        ⟨SourceStatus.ready,
          store ++ (chunks.zip vs).map (fun cv => ⟨cv.1.1, sourceId, cv.2⟩)⟩) := by
  constructor
  · simp [processEmbeddings, hfail]
  · intro provider2 vs hok
    simp [processEmbeddings, hok]

/-- C7 witness: a concrete failing provider on a one-chunk source leaves
the store untouched and marks the source `failed`. -/
theorem embedding_all_or_nothing_witness :
    processEmbeddings failProvider demoStore "s9" [("c1", "t".toList)] =
      ⟨SourceStatus.failed, demoStore⟩ :=
  (embedding_all_or_nothing failProvider demoStore "s9" [("c1", "t".toList)]
    ProviderError.apiFailure (by rfl)).1

/-! ## C6: hybrid-search deduplication -/

theorem sublist_map_filterMap {α β : Type} (f : α → Option β) (g : β → α)
    (h : ∀ i a, f i = some a → g a = i) :
    ∀ ids : List α, ((ids.filterMap f).map g).Sublist ids
  | [] => by simp
  | i :: rest => by
    cases hfi : f i with
    | none =>
      simpa [List.filterMap_cons, hfi] using (sublist_map_filterMap f g h rest).cons i
    | some a =>
      have : g a = i := h i a hfi
      simpa [List.filterMap_cons, hfi, this] using
        (sublist_map_filterMap f g h rest).cons₂ i

theorem dedupFused_nodup (kw sem : List String) : (dedupFused kw sem).Nodup :=
  (List.perm_insertionSort (fun a b => fuseLE kw sem a b = true) ((kw ++ sem).dedup)).symm.nodup
    (List.nodup_dedup _)

theorem fuseLE_trans (kw sem : List String) (a b c : String)
    (h1 : fuseLE kw sem a b = true) (h2 : fuseLE kw sem b c = true) :
    fuseLE kw sem a c = true := by
  simp only [fuseLE, decide_eq_true_eq] at *
  omega

theorem fuseLE_total (kw sem : List String) (a b : String) :
    (fuseLE kw sem a b || fuseLE kw sem b a) = true := by
  simp only [fuseLE, Bool.or_eq_true, decide_eq_true_eq]
  omega

/-- C6: for a source at or above the embedding threshold, the final
`retrieve` result mentions each chunk id at most once; an id returned by
both the keyword and the semantic path occurs exactly once in the
deduplicated union; the union is ordered by the combined rank, and that
rank strictly favors, among two ids with the same best position, the one
found by both searches. -/
theorem hybrid_retrieve_dedup (provider : Provider) (store : List VecEntry) (src : RagSource)
    (query : List Char) (maxResults : Nat)
    (hbig : embeddingThreshold ≤ src.token_count) :
    ((retrieve provider store src query maxResults).map RagChunk.chunk_id).Nodup ∧
    (fuseIds (kwIds src query) (semIds provider store src query maxResults) maxResults).Nodup ∧
    (∀ id, id ∈ kwIds src query → id ∈ semIds provider store src query maxResults →
      (dedupFused (kwIds src query) (semIds provider store src query maxResults)).count id
        = 1) ∧
    (dedupFused (kwIds src query) (semIds provider store src query maxResults)).Pairwise
      (fun a b =>
        fuseLE (kwIds src query) (semIds provider store src query maxResults) a b = true) ∧
    (∀ a b,
      bestPos (kwIds src query) (semIds provider store src query maxResults) a =
        bestPos (kwIds src query) (semIds provider store src query maxResults) b →
      bothIn (kwIds src query) (semIds provider store src query maxResults) a = true →
      bothIn (kwIds src query) (semIds provider store src query maxResults) b = false →
      fuseLE (kwIds src query) (semIds provider store src query maxResults) a b = true ∧
      fuseLE (kwIds src query) (semIds provider store src query maxResults) b a = false) := by
  set kw := kwIds src query with hkw
  set sem := semIds provider store src query maxResults with hsem
  have hnodupFuse : (fuseIds kw sem maxResults).Nodup :=
    (List.take_sublist _ _).nodup (dedupFused_nodup kw sem)
  refine ⟨?_, hnodupFuse, ?_, ?_, ?_⟩
  · have hnotlt : ¬ src.token_count < embeddingThreshold := by omega
    rw [retrieve, if_neg hnotlt]
    refine List.Sublist.nodup ?_ hnodupFuse
    refine sublist_map_filterMap _ _ ?_ _
    intro i a hfind
    exact of_decide_eq_true (by simpa using List.find?_some hfind)
  · intro id hk hs
    have hmem : id ∈ dedupFused kw sem := by
      refine (List.perm_insertionSort (fun a b => fuseLE kw sem a b = true)
        ((kw ++ sem).dedup)).mem_iff.mpr ?_
      exact List.mem_dedup.mpr (List.mem_append_left _ hk)
    have hle := List.nodup_iff_count_le_one.mp (dedupFused_nodup kw sem) id
    have hpos := List.count_pos_iff.mpr hmem
    omega
  · letI : IsTotal String (fun a b => fuseLE kw sem a b = true) :=
      ⟨fun a b => by
        rcases Bool.or_eq_true_iff.mp (fuseLE_total kw sem a b) with h | h
        · exact Or.inl h
        · exact Or.inr h⟩
    letI : IsTrans String (fun a b => fuseLE kw sem a b = true) :=
      ⟨fun a b c => fuseLE_trans kw sem a b c⟩
    exact List.sorted_insertionSort _ _
  · intro a b hpos hba hbb
    constructor
    · simp [fuseLE, fuseKey, hpos, hba, hbb]
    · simp [fuseLE, fuseKey, hpos, hba, hbb]

/-- C6 witness: deduplication at a concrete threshold-sized source where
the chunk `s1_page_1_chunk_0` is found by both paths. -/
theorem hybrid_retrieve_dedup_witness :
    ((retrieve okProvider demoStore demoSourceBig "alpha beta".toList 5).map
      RagChunk.chunk_id).Nodup ∧
    (dedupFused (kwIds demoSourceBig "alpha beta".toList)
      (semIds okProvider demoStore demoSourceBig "alpha beta".toList 5)).count
        "s1_page_1_chunk_0" = 1 :=
  ⟨(hybrid_retrieve_dedup okProvider demoStore demoSourceBig "alpha beta".toList 5
      (by decide)).1,
    (hybrid_retrieve_dedup okProvider demoStore demoSourceBig "alpha beta".toList 5
      (by decide)).2.2.1 "s1_page_1_chunk_0" (by decide) (by decide)⟩

/-! ## C1: chunk-id format round-trip -/

theorem stop_chunk (l1 X : List Char) (h : ∀ c ∈ l1, isDigitChar c = true) :
    (l1 ++ (revChunkLit ++ X)).takeWhile isDigitChar = l1 ∧
      (l1 ++ (revChunkLit ++ X)).dropWhile isDigitChar = revChunkLit ++ X :=
  takeWhile_append_stop isDigitChar l1 '_' ("knuhc_".toList ++ X) h (by decide)

theorem stop_page (l1 X : List Char) (h : ∀ c ∈ l1, isDigitChar c = true) :
    (l1 ++ (revPageLit ++ X)).takeWhile isDigitChar = l1 ∧
      (l1 ++ (revPageLit ++ X)).dropWhile isDigitChar = revPageLit ++ X :=
  takeWhile_append_stop isDigitChar l1 '_' ("egap_".toList ++ X) h (by decide)

theorem parseCore_shape (A DN DM : List Char) (hA : A ≠ [])
    (hterm : ∀ c ∈ A, isLineTerm c = false)
    (hDN : ∀ c ∈ DN, isDigitChar c = true) (hDM : ∀ c ∈ DM, isDigitChar c = true)
    (hDNne : DN ≠ []) (hDMne : DM ≠ []) :
    parseChunkIdCore (A ++ "_page_".toList ++ DN ++ "_chunk_".toList ++ DM)
      = some (A, DN, DM) := by
  have hrev : (A ++ "_page_".toList ++ DN ++ "_chunk_".toList ++ DM).reverse
      = DM.reverse ++ (revChunkLit ++ (DN.reverse ++ (revPageLit ++ A.reverse))) := by
    simp only [List.reverse_append, List.append_assoc]
    rfl
  have h1 := stop_chunk DM.reverse (DN.reverse ++ (revPageLit ++ A.reverse))
    (fun c hc => hDM c (List.mem_reverse.mp hc))
  have h2 := stop_page DN.reverse A.reverse (fun c hc => hDN c (List.mem_reverse.mp hc))
  have hDMr : DM.reverse.isEmpty = false := by
    cases hDMe : DM.reverse with
    | nil => exact absurd (by simpa using hDMe) hDMne
    | cons x xs => rfl
  have hDNr : DN.reverse.isEmpty = false := by
    cases hDNe : DN.reverse with
    | nil => exact absurd (by simpa using hDNe) hDNne
    | cons x xs => rfl
  have hAe : A.isEmpty = false := by
    cases hAc : A with
    | nil => exact absurd hAc hA
    | cons x xs => rfl
  have hAany : A.any isLineTerm = false := by
    simp only [List.any_eq_false]
    intro c hc
    simp [hterm c hc]
  simp only [parseChunkIdCore, hrev, h1.1, h1.2, hDMr, Bool.false_eq_true, if_false,
    dropLit_self]
  simp only [h2.1, h2.2, hDNr, Bool.false_eq_true, if_false, dropLit_self,
    List.reverse_reverse, hAe, hAany]

/-- C1 counterexample: the claim quantifies over every `sourceId`, but
for the empty source id the formatted identifier is `_page_1_chunk_2`,
on which `parseChunkId` returns `null` (the regex group `(.+)` needs at
least one character), not `("", 1, 2)`. -/
theorem chunk_id_roundtrip_counterexample :
    chunkIdStr "" 1 2 = "_page_1_chunk_2" ∧ parseChunkId (chunkIdStr "" 1 2) = none := by
  decide

/-- C1 (amended): for every non-empty `sourceId` containing no JS line
terminator, and all `pageNumber`, `chunkIndex`, the identifier
`{sourceId}_page_{pageNumber}_chunk_{chunkIndex}` parses back to exactly
that triple, and identifiers of one source are unique: equal identifier
strings force equal `(pageNumber, chunkIndex)` pairs. -/
theorem chunk_id_roundtrip_amended (a : String) (n m : Nat) (ha : a ≠ "")
    (hterm : ∀ c ∈ a.toList, isLineTerm c = false) :
    parseChunkId (chunkIdStr a n m) = some (a, n, m) ∧
    (∀ n' m', chunkIdStr a n m = chunkIdStr a n' m' → n = n' ∧ m = m') := by
  have hlist : a.toList ≠ [] := by
    intro h
    apply ha
    have : a = a.toList.asString := rfl
    rw [this, h]
    rfl
  have key : ∀ n₀ m₀ : Nat, parseChunkId (chunkIdStr a n₀ m₀) = some (a, n₀, m₀) := by
    intro n₀ m₀
    have hshape : (chunkIdStr a n₀ m₀).toList
        = a.toList ++ "_page_".toList ++ natDigits n₀ ++ "_chunk_".toList ++ natDigits m₀ :=
      rfl
    have hcore := parseCore_shape a.toList (natDigits n₀) (natDigits m₀) hlist hterm
      (natDigits_all_digits n₀) (natDigits_all_digits m₀)
      (natDigits_ne_nil n₀) (natDigits_ne_nil m₀)
    simp only [parseChunkId, hshape, hcore]
    simp only [digitsToNat_natDigits]
    rfl
  refine ⟨key n m, ?_⟩
  intro n' m' heq
  have h1 := key n m
  rw [heq, key n' m'] at h1
  simp only [Option.some.injEq, Prod.mk.injEq] at h1
  exact ⟨h1.2.1.symm, h1.2.2.symm⟩

/-- C1 witness: the amended round trip at the concrete id
`src_page_12_chunk_3`. -/
theorem chunk_id_roundtrip_amended_witness :
    parseChunkId (chunkIdStr "src" 12 3) = some ("src", 12, 3) :=
  (chunk_id_roundtrip_amended "src" 12 3 (by decide) (by decide)).1

/-! ## C10: citation split partitions the input -/

theorem tryCiteMatch_eq (l r after : List Char) (h : tryCiteMatch l = some (r, after)) :
    l = citeOpenLit ++ (r ++ (citeCloseLit ++ after)) := by
  unfold tryCiteMatch at h
  cases h1 : dropLit citeOpenLit l with
  | none => rw [h1] at h; simp at h
  | some rest1 =>
    rw [h1] at h
    dsimp only at h
    by_cases hv : (parseChunkIdCore (rest1.takeWhile isCiteChar)).isSome = true
    · rw [if_pos hv] at h
      cases h2 : dropLit citeCloseLit (rest1.dropWhile isCiteChar) with
      | none => rw [h2] at h; simp at h
      | some rest2 =>
        rw [h2] at h
        simp only [Option.some.injEq, Prod.mk.injEq] at h
        obtain ⟨hr, hafter⟩ := h
        have e1 : l = citeOpenLit ++ rest1 := dropLit_eq _ _ _ h1
        have e2 : rest1.dropWhile isCiteChar = citeCloseLit ++ rest2 := dropLit_eq _ _ _ h2
        have e3 : rest1.takeWhile isCiteChar ++ rest1.dropWhile isCiteChar = rest1 :=
          List.takeWhile_append_dropWhile _ _
        rw [e1, ← e3, e2, hr, hafter]
    · rw [if_neg hv] at h
      simp at h

theorem scan_partition : ∀ (fuel : Nat) (pending l : List Char),
    ((scanCiteAux fuel pending l).map flatSeg).flatten = pending.reverse ++ l
  | 0, pending, l => by
    by_cases h : (pending.reverse ++ l).isEmpty = true
    · simp [scanCiteAux, h, List.isEmpty_iff.mp h]
    · simp [scanCiteAux, h, flatSeg]
  | fuel + 1, pending, l => by
    cases l with
    | nil =>
      by_cases h : pending.isEmpty = true
      · simp [scanCiteAux, h, List.isEmpty_iff.mp h]
      · simp [scanCiteAux, h, flatSeg]
    | cons c rest =>
      cases hm : tryCiteMatch (c :: rest) with
      | none =>
        have ih := scan_partition fuel (c :: pending) rest
        simp only [scanCiteAux, hm]
        rw [ih]
        simp
      | some pr =>
        obtain ⟨r, after⟩ := pr
        have heq := tryCiteMatch_eq (c :: rest) r after hm
        have ih := scan_partition fuel [] after
        by_cases hp : pending.isEmpty = true
        · simp only [scanCiteAux, hm, hp, if_true]
          simp only [List.isEmpty_iff.mp hp, List.map_cons, List.map_nil, List.flatten,
            flatSeg, List.map_append, List.nil_append]
          rw [ih]
          simp [heq]
        · simp only [scanCiteAux, hm, hp, if_false, Bool.false_eq_true]
          simp only [List.map_append, List.map_cons, List.map_nil, List.flatten_append,
            List.flatten, flatSeg]
          rw [ih]
          simp [heq]

/-- C10: `splitTextWithCitations` exactly partitions its input — the
segments, re-rendered in order (text verbatim, citations as
`[[cite:{content}]]`), concatenate back to the original string,
character for character. -/
theorem split_citations_partition (s : String) :
    ((splitTextWithCitations s).map flatSeg).flatten = s.toList := by
  have := scan_partition s.toList.length [] s.toList
  simpa using this

/-! ## C4: chunk token bounds -/

theorem chunkTokens_append (x y : List (List Char)) :
    chunkTokens (x ++ y) = chunkTokens x + chunkTokens y := by
  simp [chunkTokens]

theorem chunkTokens_reverse (x : List (List Char)) : chunkTokens x.reverse = chunkTokens x := by
  simp [chunkTokens, List.map_reverse, List.sum_reverse]

theorem headTok_append (x y : List (List Char)) (hx : x ≠ []) :
    headTok (x ++ y) = headTok x := by
  cases x with
  | nil => exact absurd rfl hx
  | cons a t => rfl

theorem chunkAux_spec :
    ∀ (rest acc : List (List Char)) (tok : Nat),
      tok = chunkTokens acc →
      (∀ s t u, acc = s :: t :: u → tok ≤ chunkMaxTokens) →
      (∀ g ∈ chunkAux acc tok rest, isOversizedSingle g = false →
        chunkTokens g ≤ chunkMaxTokens) ∧
      List.Chain' (fun g h => chunkMaxTokens < chunkTokens g + headTok h)
        (chunkAux acc tok rest) ∧
      (acc ≠ [] → ∃ g gs, chunkAux acc tok rest = g :: gs ∧ headTok g = headTok acc.reverse)
  | [], [], tok, htok, hbound => by
    refine ⟨?_, ?_, ?_⟩
    · intro g hg
      simp [chunkAux] at hg
    · simp [chunkAux]
    · intro h
      exact absurd rfl h
  | [], a :: t, tok, htok, hbound => by
    have hne : (a :: t).isEmpty = false := rfl
    refine ⟨?_, ?_, ?_⟩
    · intro g hg hover
      simp only [chunkAux, hne, Bool.false_eq_true, if_false, List.mem_singleton] at hg
      subst hg
      rw [chunkTokens_reverse, ← htok]
      cases t with
      | nil =>
        simp only [List.reverse_cons, List.reverse_nil, List.nil_append,
          isOversizedSingle] at hover
        have hnlt : ¬ chunkMaxTokens < countTokens a := of_decide_eq_false hover
        have htok' : tok = countTokens a := by simp [htok, chunkTokens]
        omega
      | cons b u =>
        exact hbound a b u rfl
    · simp [chunkAux, hne]
    · intro _
      refine ⟨(a :: t).reverse, [], by simp [chunkAux, hne], rfl⟩
  | s :: rest', [], tok, htok, hbound => by
    have ih := chunkAux_spec rest' [s] (countTokens s) (by simp [chunkTokens])
      (by intro x y z hxy; exact absurd hxy (by simp))
    refine ⟨?_, ?_, ?_⟩
    · intro g hg
      simp only [chunkAux, List.isEmpty_nil, if_true] at hg
      exact ih.1 g hg
    · simp only [chunkAux, List.isEmpty_nil, if_true]
      exact ih.2.1
    · intro h
      exact absurd rfl h
  | s :: rest', a :: t, tok, htok, hbound => by
    have hne : (a :: t).isEmpty = false := rfl
    by_cases hover : chunkMaxTokens < tok + countTokens s
    · have ih := chunkAux_spec rest' [s] (countTokens s) (by simp [chunkTokens])
        (by intro x y z hxy; exact absurd hxy (by simp))
      obtain ⟨g', gs', hout', hhead'⟩ := ih.2.2 (by simp)
      have houter :
          chunkAux (a :: t) tok (s :: rest')
            = (a :: t).reverse :: chunkAux [s] (countTokens s) rest' := by
        simp [chunkAux, hne, hover]
      refine ⟨?_, ?_, ?_⟩
      · intro g hg hoverg
        rw [houter] at hg
        rcases List.mem_cons.mp hg with hg | hg
        · subst hg
          rw [chunkTokens_reverse, ← htok]
          cases t with
          | nil =>
            simp only [List.reverse_cons, List.reverse_nil, List.nil_append,
              isOversizedSingle] at hoverg
            have hnlt : ¬ chunkMaxTokens < countTokens a := of_decide_eq_false hoverg
            have htok' : tok = countTokens a := by simp [htok, chunkTokens]
            omega
          | cons b u => exact hbound a b u rfl
        · exact ih.1 g hg hoverg
      · rw [houter, hout']
        refine List.chain'_cons.mpr ⟨?_, hout' ▸ ih.2.1⟩
        rw [chunkTokens_reverse, ← htok, hhead']
        simpa [headTok] using hover
      · intro _
        exact ⟨(a :: t).reverse, chunkAux [s] (countTokens s) rest', houter, rfl⟩
    · have hfits : tok + countTokens s ≤ chunkMaxTokens := by omega
      have ih := chunkAux_spec rest' (s :: a :: t) (tok + countTokens s)
        (by simp [chunkTokens, htok]; ring)
        (by intro x y z hxy; omega)
      have houter :
          chunkAux (a :: t) tok (s :: rest')
            = chunkAux (s :: a :: t) (tok + countTokens s) rest' := by
        simp [chunkAux, hne, hover]
      refine ⟨?_, ?_, ?_⟩
      · intro g hg
        rw [houter] at hg
        exact ih.1 g hg
      · rw [houter]
        exact ih.2.1
      · intro _
        obtain ⟨g, gs, hout, hhead⟩ := ih.2.2 (by simp)
        refine ⟨g, gs, houter ▸ hout, ?_⟩
        rw [hhead, List.reverse_cons]
        exact headTok_append _ _ (by simp)

set_option maxRecDepth 100000 in
/-- C4 counterexample: on a page of two sentences of 60 and 181 words,
the greedy chunker closes the first chunk at 60 tokens (60 + 181 > 240),
so a chunk that is neither the final chunk of the page nor a single
oversized sentence falls below the claimed lower bound of 160. -/
theorem chunk_token_bound_counterexample :
    (chunkPage chunkDemoText.toList).map chunkTokens = [60, 181] ∧
    (chunkPage chunkDemoText.toList).map isOversizedSingle = [false, false] ∧
    ¬ chunkMinTokens ≤ 60 := by
  refine ⟨by decide, by decide, by decide⟩

/-- C4 (amended): every chunk that is not a single oversized sentence
respects the upper bound `tokenCount ≤ 240`, and a chunk is closed early
only under pressure: for every adjacent pair of chunks, the earlier
chunk's token count plus the first sentence of the later chunk exceeds
240.  The claimed lower bound of 160 does not hold (see the
counterexample); this closure property is what the greedy algorithm
actually guarantees. -/
theorem chunk_token_bound_amended (text : List Char) :
    (∀ g ∈ chunkPage text, isOversizedSingle g = false →
      chunkTokens g ≤ chunkMaxTokens) ∧
    List.Chain' (fun g h => chunkMaxTokens < chunkTokens g + headTok h) (chunkPage text) := by
  have h := chunkAux_spec (splitSentences text) [] 0 rfl
    (by intro s t u h; exact absurd h (by simp))
  exact ⟨h.1, h.2.1⟩

set_option maxRecDepth 100000 in
/-- C4 witness: the amended upper bound applied to the first chunk of
the demo page. -/
theorem chunk_token_bound_amended_witness :
    chunkTokens (chunkPage chunkDemoText.toList).headI ≤ chunkMaxTokens :=
  (chunk_token_bound_amended chunkDemoText.toList).1 _ (by decide) (by decide)

/-! ## Lines: split and join are mutually inverse -/

theorem joinNL_cons_cons (c : Char) (h : List Char) (t : List (List Char)) :
    joinNL ((c :: h) :: t) = c :: joinNL (h :: t) := by
  cases t <;> rfl

theorem joinNL_splitLines : ∀ l : List Char, joinNL (splitLines l) = l := by
  intro l
  induction l with
  | nil => rfl
  | cons c r ih =>
    by_cases hc : c = '\n'
    · subst hc
      simp only [splitLines, linesAux, if_pos rfl]
      show joinNL ([] :: (linesAux r).1 :: (linesAux r).2) = '\n' :: r
      show [] ++ '\n' :: joinNL ((linesAux r).1 :: (linesAux r).2) = '\n' :: r
      rw [List.nil_append]
      exact congrArg ('\n' :: ·) ih
    · simp only [splitLines, linesAux, if_neg hc]
      show joinNL ((c :: (linesAux r).1) :: (linesAux r).2) = c :: r
      rw [joinNL_cons_cons]
      exact congrArg (c :: ·) ih

theorem linesAux_no_nl : ∀ l : List Char, (∀ c ∈ l, c ≠ '\n') → linesAux l = (l, []) := by
  intro l
  induction l with
  | nil => intro _; rfl
  | cons c r ih =>
    intro h
    have hc : ¬ c = '\n' := h c (by simp)
    simp only [linesAux, if_neg hc, ih (fun x hx => h x (by simp [hx]))]

theorem linesAux_append_nl (a w : List Char) (ha : ∀ c ∈ a, c ≠ '\n') :
    linesAux (a ++ '\n' :: w) = (a, (linesAux w).1 :: (linesAux w).2) := by
  induction a with
  | nil => simp [linesAux]
  | cons c r ih =>
    have hc : ¬ c = '\n' := ha c (by simp)
    have ih' := ih (fun x hx => ha x (by simp [hx]))
    show linesAux (c :: (r ++ '\n' :: w)) = _
    simp only [linesAux, if_neg hc]
    rw [ih']

theorem splitLines_joinNL :
    ∀ L : List (List Char), L ≠ [] → (∀ x ∈ L, ∀ c ∈ x, c ≠ '\n') →
      splitLines (joinNL L) = L
  | [], h, _ => absurd rfl h
  | [a], _, hnl => by
    have := linesAux_no_nl a (hnl a (by simp))
    simp [splitLines, joinNL, this]
  | a :: b :: t, _, hnl => by
    have ha : ∀ c ∈ a, c ≠ '\n' := hnl a (by simp)
    have ih := splitLines_joinNL (b :: t) (by simp)
      (fun x hx c hc => hnl x (by simp [List.mem_cons] at hx ⊢; tauto) c hc)
    show splitLines (a ++ '\n' :: joinNL (b :: t)) = a :: b :: t
    simp only [splitLines, linesAux_append_nl a _ ha]
    simp only [splitLines] at ih
    rw [ih]

theorem splitLines_no_nl :
    ∀ l : List Char, ∀ x ∈ splitLines l, ∀ c ∈ x, c ≠ '\n' := by
  intro l
  induction l with
  | nil =>
    intro x hx c hc
    simp [splitLines, linesAux] at hx
    subst hx
    simp at hc
  | cons d r ih =>
    intro x hx c hc
    by_cases hd : d = '\n'
    · subst hd
      simp only [splitLines, linesAux, if_pos rfl, List.mem_cons] at hx
      rcases hx with hx | hx
      · subst hx; simp at hc
      · exact ih x (by simpa [splitLines] using hx) c hc
    · simp only [splitLines, linesAux, if_neg hd, List.mem_cons] at hx
      rcases hx with hx | hx
      · subst hx
        rcases List.mem_cons.mp hc with hc | hc
        · subst hc; exact hd
        · exact ih (linesAux r).1 (by simp [splitLines]) c hc
      · exact ih x (by simp [splitLines, hx]) c hc

/-! ## C2: page-marker delimiter parsing -/

theorem stop_of (l1 X : List Char) (h : ∀ c ∈ l1, isDigitChar c = true) :
    (l1 ++ (revOfLit ++ X)).takeWhile isDigitChar = l1 ∧
      (l1 ++ (revOfLit ++ X)).dropWhile isDigitChar = revOfLit ++ X :=
  takeWhile_append_stop isDigitChar l1 ' ' ("fo ".toList ++ X) h (by decide)

theorem stop_pageword (l1 X : List Char) (h : ∀ c ∈ l1, isDigitChar c = true) :
    (l1 ++ (revPageWordLit ++ X)).takeWhile isDigitChar = l1 ∧
      (l1 ++ (revPageWordLit ++ X)).dropWhile isDigitChar = revPageWordLit ++ X :=
  takeWhile_append_stop isDigitChar l1 ' ' ("EGAP ".toList ++ X) h (by decide)

theorem parseDelim_delimLine (ty : List Char) (n total : Nat) :
    parseDelim (delimLine ty n total) = some (ty, n, total) := by
  have hrev : (delimLine ty n total).reverse
      = revEndLit ++ ((natDigits total).reverse ++ (revOfLit ++ ((natDigits n).reverse ++
          (revPageWordLit ++ (ty.reverse ++ " ===".toList))))) := by
    simp only [delimLine, delimMark, List.reverse_append, List.append_assoc]
    rfl
  have h1 := stop_of (natDigits total).reverse
    ((natDigits n).reverse ++ (revPageWordLit ++ (ty.reverse ++ " ===".toList)))
    (fun c hc => natDigits_all_digits total c (List.mem_reverse.mp hc))
  have h2 := stop_pageword (natDigits n).reverse (ty.reverse ++ " ===".toList)
    (fun c hc => natDigits_all_digits n c (List.mem_reverse.mp hc))
  have hTr : (natDigits total).reverse.isEmpty = false := by
    cases he : (natDigits total).reverse with
    | nil => exact absurd (by simpa using he) (natDigits_ne_nil total)
    | cons x xs => rfl
  have hNr : (natDigits n).reverse.isEmpty = false := by
    cases he : (natDigits n).reverse with
    | nil => exact absurd (by simpa using he) (natDigits_ne_nil n)
    | cons x xs => rfl
  have hback : (ty.reverse ++ " ===".toList).reverse = delimMark ++ ty := by
    simp [List.reverse_append]
    rfl
  simp only [parseDelim, hrev, dropLit_self, h1.1, h1.2, hTr, Bool.false_eq_true, if_false]
  simp only [h2.1, h2.2, hNr, Bool.false_eq_true, if_false, dropLit_self, hback,
    List.reverse_reverse, digitsToNat_natDigits]

theorem startsDelimMark_delimLine (ty : List Char) (n total : Nat) :
    startsDelimMark (delimLine ty n total) = true := by
  have : delimLine ty n total
      = delimMark ++ (ty ++ " PAGE ".toList ++ natDigits n ++ " of ".toList ++
          natDigits total ++ " ===".toList) := by
    simp [delimLine, List.append_assoc]
  rw [startsDelimMark, this, dropLit_self]
  rfl

theorem startsDelimMark_head_ne (c : Char) (r : List Char) (h : ¬ c = '=') :
    startsDelimMark (c :: r) = false := by
  have hd : delimMark = '=' :: "== ".toList := rfl
  rw [startsDelimMark, hd]
  simp [dropLit, h]

theorem headerLines_not_delim (ty : List Char) (pages : List (Nat × List Char)) :
    ∀ line ∈ headerLines ty pages, startsDelimMark line = false := by
  intro line hline
  simp only [headerLines, List.mem_cons, List.not_mem_nil, or_false] at hline
  rcases hline with h | h | h | h | h <;> subst h
  · decide
  · exact startsDelimMark_head_ne 'T' _ (by decide)
  · exact startsDelimMark_head_ne 'P' _ (by decide)
  · exact startsDelimMark_head_ne 'C' _ (by decide)
  · decide

theorem pmBody_nil (cur : Option (Nat × List (List Char))) :
    pmBody cur [] = .ok (closePage cur) := rfl

theorem pmBody_cons (cur : Option (Nat × List (List Char))) (line : List Char)
    (rest : List (List Char)) :
    pmBody cur (line :: rest) =
      (if startsDelimMark line = true then
        match parseDelim line with
        | none => .error (PMError.badDelim line)
        | some (_, n, _) =>
          if curNo cur < n then
            match pmBody (some (n, [])) rest with
            | .error e => .error e
            | .ok segs => .ok (closePage cur ++ segs)
          else .error PMError.nonMonotonic
      else
        match cur with
        | none => .error (PMError.strayText line)
        | some (n, accRev) => pmBody (some (n, line :: accRev)) rest) := rfl

theorem pmBody_text :
    ∀ (txt : List (List Char)) (n : Nat) (accRev r : List (List Char)),
      (∀ line ∈ txt, startsDelimMark line = false) →
      pmBody (some (n, accRev)) (txt ++ r) = pmBody (some (n, txt.reverse ++ accRev)) r
  | [], n, accRev, r, _ => by simp
  | line :: txt', n, accRev, r, h => by
    have hline : startsDelimMark line = false := h line (by simp)
    show pmBody (some (n, accRev)) (line :: (txt' ++ r)) = _
    rw [pmBody_cons, hline]
    simp only [Bool.false_eq_true, if_false]
    rw [pmBody_text txt' n (line :: accRev) r (fun x hx => h x (by simp [hx]))]
    simp

theorem pmBody_pages (ty : List Char) (total : Nat) :
    ∀ (pages : List (Nat × List Char)) (cur : Option (Nat × List (List Char))),
      (∀ p ∈ pages, ∀ line ∈ splitLines p.2, startsDelimMark line = false) →
      List.Chain (· < ·) (curNo cur) (pages.map Prod.fst) →
      pmBody cur ((pages.map (pageLines ty total)).flatten) = .ok (closePage cur ++ pages)
  | [], cur, _, _ => by simp [pmBody_nil]
  | (n, txt) :: rest, cur, htxt, hchain => by
    have hc := List.chain_cons.mp (by simpa using hchain)
    have hflat : ((((n, txt) :: rest).map (pageLines ty total)).flatten)
        = delimLine ty n total :: (splitLines txt ++ (rest.map (pageLines ty total)).flatten) := by
      simp [pageLines]
    rw [hflat, pmBody_cons, startsDelimMark_delimLine, if_pos rfl, parseDelim_delimLine]
    dsimp only
    rw [if_pos hc.1]
    rw [pmBody_text (splitLines txt) n [] _ (htxt (n, txt) (by simp))]
    rw [pmBody_pages ty total rest (some (n, (splitLines txt).reverse ++ []))
      (fun p hp => htxt p (by simp [hp])) (by simpa using hc.2)]
    simp only [closePage, List.append_nil, List.reverse_reverse, joinNL_splitLines,
      List.singleton_append]

theorem pmBody_open_head :
    ∀ (ls : List (List Char)) (n : Nat) (acc : List (List Char))
      (segs : List (Nat × List Char)),
      pmBody (some (n, acc)) ls = .ok segs → ∃ txt r', segs = (n, txt) :: r'
  | [], n, acc, segs, h => by
    rw [pmBody_nil] at h
    simp only [closePage, Except.ok.injEq] at h
    exact ⟨joinNL acc.reverse, [], h.symm⟩
  | line :: rest, n, acc, segs, h => by
    rw [pmBody_cons] at h
    by_cases hd : startsDelimMark line = true
    · rw [if_pos hd] at h
      cases hp : parseDelim line with
      | none => rw [hp] at h; simp at h
      | some v =>
        obtain ⟨ty', n', tot'⟩ := v
        rw [hp] at h
        dsimp only at h
        by_cases hlt : curNo (some (n, acc)) < n'
        · rw [if_pos hlt] at h
          cases hrec : pmBody (some (n', [])) rest with
          | error e => rw [hrec] at h; simp at h
          | ok segs' =>
            rw [hrec] at h
            simp only [Except.ok.injEq] at h
            exact ⟨joinNL acc.reverse, segs', by simp [← h, closePage]⟩
        · rw [if_neg hlt] at h; simp at h
    · rw [if_neg hd] at h
      dsimp only at h
      exact pmBody_open_head rest n (line :: acc) segs h

theorem pmBody_chain :
    ∀ (ls : List (List Char)) (cur : Option (Nat × List (List Char)))
      (segs : List (Nat × List Char)),
      pmBody cur ls = .ok segs →
      List.Chain (· < ·) (curNo cur) ((segs.map Prod.fst).drop (closePage cur).length)
  | [], cur, segs, h => by
    rw [pmBody_nil] at h
    simp only [Except.ok.injEq] at h
    subst h
    cases cur with
    | none => exact List.Chain.nil
    | some v => simp [closePage]
  | line :: rest, cur, segs, h => by
    rw [pmBody_cons] at h
    by_cases hd : startsDelimMark line = true
    · rw [if_pos hd] at h
      cases hp : parseDelim line with
      | none => rw [hp] at h; simp at h
      | some v =>
        obtain ⟨ty', n', tot'⟩ := v
        rw [hp] at h
        dsimp only at h
        by_cases hlt : curNo cur < n'
        · rw [if_pos hlt] at h
          cases hrec : pmBody (some (n', [])) rest with
          | error e => rw [hrec] at h; simp at h
          | ok segs' =>
            rw [hrec] at h
            simp only [Except.ok.injEq] at h
            subst h
            obtain ⟨txt, r', hsegs'⟩ := pmBody_open_head rest n' [] segs' hrec
            have hch := pmBody_chain rest (some (n', [])) segs' hrec
            rw [hsegs'] at hch ⊢
            simp only [closePage, List.length_singleton, List.map_cons, List.drop_one,
              List.tail_cons, curNo] at hch
            rw [List.map_append, List.drop_left']
            · simp only [List.map_cons]
              exact List.chain_cons.mpr ⟨hlt, hch⟩
            · cases cur <;> simp [closePage]
        · rw [if_neg hlt] at h; simp at h
    · rw [if_neg hd] at h
      cases cur with
      | none => simp at h
      | some v =>
        obtain ⟨n, acc⟩ := v
        dsimp only at h
        have hch := pmBody_chain rest (some (n, line :: acc)) segs h
        simpa [closePage, curNo] using hch

theorem pmBody_no_malformed :
    ∀ (ls : List (List Char)) (cur : Option (Nat × List (List Char)))
      (segs : List (Nat × List Char)),
      pmBody cur ls = .ok segs →
      ∀ line ∈ ls, startsDelimMark line = true → parseDelim line ≠ none
  | [], _, _, _ => by simp
  | line :: rest, cur, segs, h => by
    rw [pmBody_cons] at h
    intro l hl hdl
    by_cases hd : startsDelimMark line = true
    · rw [if_pos hd] at h
      cases hp : parseDelim line with
      | none => rw [hp] at h; simp at h
      | some v =>
        obtain ⟨ty', n', tot'⟩ := v
        rw [hp] at h
        dsimp only at h
        by_cases hlt : curNo cur < n'
        · rw [if_pos hlt] at h
          cases hrec : pmBody (some (n', [])) rest with
          | error e => rw [hrec] at h; simp at h
          | ok segs' =>
            rcases List.mem_cons.mp hl with hl | hl
            · subst hl; simp [hp]
            · exact pmBody_no_malformed rest (some (n', [])) segs' hrec l hl hdl
        · rw [if_neg hlt] at h; simp at h
    · rw [if_neg hd] at h
      cases cur with
      | none => simp at h
      | some v =>
        obtain ⟨n, acc⟩ := v
        dsimp only at h
        rcases List.mem_cons.mp hl with hl | hl
        · subst hl; exact absurd hdl hd
        · exact pmBody_no_malformed rest (some (n, line :: acc)) segs h l hl hdl

theorem not_nl_of_digit {c : Char} (h : isDigitChar c = true) : c ≠ '\n' := by
  intro he
  subst he
  exact absurd h (by decide)

theorem delimLine_no_nl (ty : List Char) (n total : Nat) (hty : ∀ c ∈ ty, c ≠ '\n') :
    ∀ c ∈ delimLine ty n total, c ≠ '\n' := by
  intro c hc
  simp only [delimLine, delimMark, List.append_assoc, List.mem_append] at hc
  rcases hc with h | h | h | h | h | h | h
  · exact (by decide : ∀ x ∈ "=== ".toList, x ≠ '\n') c h
  · exact hty c h
  · exact (by decide : ∀ x ∈ " PAGE ".toList, x ≠ '\n') c h
  · exact not_nl_of_digit (natDigits_all_digits n c h)
  · exact (by decide : ∀ x ∈ " of ".toList, x ≠ '\n') c h
  · exact not_nl_of_digit (natDigits_all_digits total c h)
  · exact (by decide : ∀ x ∈ " ===".toList, x ≠ '\n') c h

theorem headerLines_no_nl (ty : List Char) (pages : List (Nat × List Char))
    (hty : ∀ c ∈ ty, c ≠ '\n') :
    ∀ x ∈ headerLines ty pages, ∀ c ∈ x, c ≠ '\n' := by
  intro x hx c hc
  simp only [headerLines, List.mem_cons, List.not_mem_nil, or_false] at hx
  rcases hx with h | h | h | h | h <;> subst h
  · exact (by decide : ∀ y ∈ "KNOWBOOK PROCESSED TEXT".toList, y ≠ '\n') c hc
  · rcases List.mem_append.mp hc with h | h
    · exact (by decide : ∀ y ∈ "TYPE: ".toList, y ≠ '\n') c h
    · exact hty c h
  · rcases List.mem_append.mp hc with h | h
    · exact (by decide : ∀ y ∈ "PAGES: ".toList, y ≠ '\n') c h
    · exact not_nl_of_digit (natDigits_all_digits _ c h)
  · rcases List.mem_append.mp hc with h | h
    · exact (by decide : ∀ y ∈ "CHARS: ".toList, y ≠ '\n') c h
    · exact not_nl_of_digit (natDigits_all_digits _ c h)
  · exact (by decide : ∀ y ∈ "# ---".toList, y ≠ '\n') c hc

theorem splitLines_formatPages (ty : List Char) (pages : List (Nat × List Char))
    (hty : ∀ c ∈ ty, c ≠ '\n') :
    splitLines (formatPages ty pages)
      = headerLines ty pages ++ (pages.map (pageLines ty pages.length)).flatten := by
  refine splitLines_joinNL _ (by simp [headerLines]) ?_
  intro x hx
  rcases List.mem_append.mp hx with h | h
  · exact headerLines_no_nl ty pages hty x h
  · obtain ⟨l, hl, hxl⟩ := List.mem_flatten.mp h
    obtain ⟨p, hp, rfl⟩ := List.mem_map.mp hl
    rcases List.mem_cons.mp hxl with h | h
    · subst h
      exact delimLine_no_nl ty p.1 pages.length hty
    · exact splitLines_no_nl p.2 x h

theorem chain_lt_range' : ∀ (len a : Nat), List.Chain (· < ·) a (List.range' (a + 1) len)
  | 0, a => List.Chain.nil
  | len + 1, a => by
    have : List.range' (a + 1) (len + 1) = (a + 1) :: List.range' (a + 2) len := rfl
    rw [this]
    exact List.Chain.cons (Nat.lt_succ_self a) (chain_lt_range' len (a + 1))

theorem chain_imp_chain' {α : Type} (R : α → α → Prop) :
    ∀ (l : List α) (a : α), List.Chain R a l → List.Chain' R l
  | [], _, _ => List.chain'_nil
  | [b], _, _ => List.chain'_singleton b
  | b :: c :: u, a, h => by
    obtain ⟨hab, hrest⟩ := List.chain_cons.mp h
    obtain ⟨hbc, hrest'⟩ := List.chain_cons.mp hrest
    exact List.chain'_cons.mpr ⟨hbc, chain_imp_chain' R (c :: u) b hrest⟩

/-- C2 counterexample: for the valid single-page list whose page text is
itself a well-formed delimiter line, `parse(format(...))` returns two
empty pages instead of the original page — the round trip fails without
an assumption on the page texts. -/
theorem page_marker_roundtrip_counterexample :
    parsePages (formatPages "TEXT".toList pmBadPages)
      = .ok (joinNL (headerLines "TEXT".toList pmBadPages),
          [(1, ([] : List Char)), (2, ([] : List Char))]) ∧
    [(1, ([] : List Char)), (2, ([] : List Char))] ≠ pmBadPages :=
  ⟨rfl, by decide⟩

/-- C2 (amended): for every valid page list (page numbers contiguous
from 1) whose page texts contain no line starting with `=== ` and whose
source type contains no newline, parsing the formatted string recovers
exactly the original page segments; moreover whenever `parse` succeeds
the recovered page numbers are strictly increasing (non-monotonic
delimiters fail with `ParseError`), and no `=== `-marked line of a
successfully parsed document is a malformed delimiter (malformed
delimiter lines fail with `ParseError`). -/
theorem page_marker_roundtrip_amended :
    (∀ (ty : List Char) (pages : List (Nat × List Char)),
      (∀ c ∈ ty, c ≠ '\n') →
      pages.map Prod.fst = List.range' 1 pages.length →
      (∀ p ∈ pages, ∀ line ∈ splitLines p.2, startsDelimMark line = false) →
      parsePages (formatPages ty pages) = .ok (joinNL (headerLines ty pages), pages)) ∧
    (∀ (doc : List Char) (hd : List Char) (segs : List (Nat × List Char)),
      parsePages doc = .ok (hd, segs) → List.Chain' (· < ·) (segs.map Prod.fst)) ∧
    (∀ (doc : List Char) (hd : List Char) (segs : List (Nat × List Char)),
      parsePages doc = .ok (hd, segs) →
      ∀ line ∈ splitLines doc, startsDelimMark line = true → parseDelim line ≠ none) := by
  refine ⟨?_, ?_, ?_⟩
  · intro ty pages hty hnums htxt
    have hchain : List.Chain (· < ·) 0 (pages.map Prod.fst) := by
      rw [hnums]
      exact chain_lt_range' pages.length 0
    have hlines := splitLines_formatPages ty pages hty
    cases pages with
    | nil =>
      have hall := takeWhile_all (fun l => !startsDelimMark l) (headerLines ty [])
        (fun x hx => by simp [headerLines_not_delim ty [] x hx])
      simp only [List.map_nil, List.flatten_nil, List.append_nil] at hlines
      simp only [parsePages, hlines, hall.1, hall.2, pmBody_nil, closePage]
    | cons p rest =>
      have hbody : (((p :: rest).map (pageLines ty (p :: rest).length)).flatten)
          = delimLine ty p.1 (p :: rest).length ::
              (splitLines p.2 ++ (rest.map (pageLines ty (p :: rest).length)).flatten) := by
        simp [pageLines]
      have hstop := takeWhile_append_stop (fun l => !startsDelimMark l)
        (headerLines ty (p :: rest)) (delimLine ty p.1 (p :: rest).length)
        (splitLines p.2 ++ (rest.map (pageLines ty (p :: rest).length)).flatten)
        (fun x hx => by simp [headerLines_not_delim ty (p :: rest) x hx])
        (by simp [startsDelimMark_delimLine])
      have hpm := pmBody_pages ty (p :: rest).length (p :: rest) none htxt
        (by simpa using hchain)
      rw [hbody] at hlines
      simp only [parsePages, hlines, hstop.1, hstop.2]
      rw [← hbody, hpm]
      simp [closePage]
  · intro doc hd segs hp
    simp only [parsePages] at hp
    cases hb : pmBody none ((splitLines doc).dropWhile fun l => !startsDelimMark l) with
    | error e => rw [hb] at hp; simp at hp
    | ok s0 =>
      rw [hb] at hp
      simp only [Except.ok.injEq, Prod.mk.injEq] at hp
      have hch := pmBody_chain _ none s0 hb
      simp only [closePage, List.length_nil, List.drop_zero, curNo] at hch
      rw [← hp.2]
      exact chain_imp_chain' _ _ 0 hch
  · intro doc hd segs hp line hline hmark
    simp only [parsePages] at hp
    cases hb : pmBody none ((splitLines doc).dropWhile fun l => !startsDelimMark l) with
    | error e => rw [hb] at hp; simp at hp
    | ok s0 =>
      rw [← List.takeWhile_append_dropWhile (fun l => !startsDelimMark l) (splitLines doc)]
        at hline
      rcases List.mem_append.mp hline with h | h
      · have := List.mem_takeWhile_imp h
        simp [hmark] at this
      · exact pmBody_no_malformed _ none s0 hb line h hmark

/-- C2 witness: the amended round trip at a concrete one-page document. -/
theorem page_marker_roundtrip_amended_witness :
    parsePages (formatPages "TEXT".toList [(1, "hello".toList)])
      = .ok (joinNL (headerLines "TEXT".toList [(1, "hello".toList)]),
          [(1, "hello".toList)]) :=
  page_marker_roundtrip_amended.1 "TEXT".toList [(1, "hello".toList)]
    (by decide) (by decide) (by decide)

/-! ## C8: cleanContent -/

theorem hasNNN_cons_ne (x : Char) (t : List Char) (hx : ¬ x = '\n') :
    hasNNN (x :: t) = hasNNN t := by
  cases t with
  | nil => rfl
  | cons c2 t2 =>
    cases t2 with
    | nil => rfl
    | cons c3 r => simp [hasNNN, hx]

theorem hasNNN_nl_cons_ne (x : Char) (t : List Char) (hx : ¬ x = '\n') :
    hasNNN ('\n' :: x :: t) = hasNNN (x :: t) := by
  cases t with
  | nil => rfl
  | cons c3 r => simp [hasNNN, hx]

theorem hasNNN_2nl_cons_ne (x : Char) (t : List Char) (hx : ¬ x = '\n') :
    hasNNN ('\n' :: '\n' :: x :: t) = hasNNN ('\n' :: x :: t) := by
  simp [hasNNN, hx]

theorem hasNNN_goNL : ∀ (l : List Char) (k : Nat), hasNNN (goNL k l) = false := by
  intro l
  induction l with
  | nil =>
    intro k
    by_cases h3 : 3 ≤ k
    · simp [goNL, h3]
      decide
    · have hk : k < 3 := by omega
      simp only [goNL, if_neg h3]
      interval_cases k <;> decide
  | cons c rest ih =>
    intro k
    by_cases hc : c = '\n'
    · subst hc
      simp only [goNL, if_pos rfl]
      exact ih (k + 1)
    · have hx : hasNNN (c :: goNL 0 rest) = false := by
        rw [hasNNN_cons_ne c _ hc]
        exact ih 0
      simp only [goNL, if_neg hc]
      by_cases h3 : 3 ≤ k
      · rw [if_pos h3]
        show hasNNN ('\n' :: '\n' :: c :: goNL 0 rest) = false
        rw [hasNNN_2nl_cons_ne c _ hc, hasNNN_nl_cons_ne c _ hc, hx]
      · rw [if_neg h3]
        have hk : k < 3 := by omega
        interval_cases k
        · simpa using hx
        · show hasNNN ('\n' :: c :: goNL 0 rest) = false
          rw [hasNNN_nl_cons_ne c _ hc, hx]
        · show hasNNN ('\n' :: '\n' :: c :: goNL 0 rest) = false
          rw [hasNNN_2nl_cons_ne c _ hc, hasNNN_nl_cons_ne c _ hc, hx]

theorem hasNNN_collapseNL (l : List Char) : hasNNN (collapseNL l) = false :=
  hasNNN_goNL l 0

theorem okWS_cons_imp {c : Char} {r : List Char} (h : okWS (c :: r) = true) :
    okWS r = true := by
  simp only [okWS, Bool.and_eq_true] at h
  exact h.2

theorem okWS_cons_parts {c : Char} {r : List Char} (h : okWS (c :: r) = true) :
    ¬ c = '\t' ∧ ¬ (c = ' ' ∧ headIs ' ' r = true) := by
  simp only [okWS, Bool.and_eq_true, Bool.not_eq_true'] at h
  refine ⟨by simpa using h.1.1, ?_⟩
  rintro ⟨hc, hh⟩
  subst hc
  simp [hh] at h

theorem okWS_build {c : Char} {r : List Char} (h1 : ¬ c = '\t')
    (h2 : ¬ (c = ' ' ∧ headIs ' ' r = true)) (h3 : okWS r = true) :
    okWS (c :: r) = true := by
  simp only [okWS, Bool.and_eq_true, Bool.not_eq_true']
  refine ⟨⟨by simpa using h1, ?_⟩, h3⟩
  by_cases hc : c = ' '
  · subst hc
    have : ¬ headIs ' ' r = true := fun hh => h2 ⟨rfl, hh⟩
    simp [this]
  · simp [hc]

theorem okWS_dropWhile (p : Char → Bool) :
    ∀ l : List Char, okWS l = true → okWS (l.dropWhile p) = true
  | [], h => h
  | c :: rest, h => by
    by_cases hp : p c = true
    · rw [List.dropWhile_cons_of_pos hp]
      exact okWS_dropWhile p rest (okWS_cons_imp h)
    · rwa [List.dropWhile_cons_of_neg hp]

theorem dropEndTrim_shape (x : Char) (xs : List Char) :
    dropEndTrim (x :: xs) = [] ∨ ∃ ys, dropEndTrim (x :: xs) = x :: ys := by
  have he : dropEndTrim (x :: xs)
      = (if (dropEndTrim xs).isEmpty && isTrimChar x then [] else x :: dropEndTrim xs) := rfl
  by_cases h : ((dropEndTrim xs).isEmpty && isTrimChar x) = true
  · left; rw [he, if_pos h]
  · right; exact ⟨dropEndTrim xs, by rw [he, if_neg h]⟩

theorem okWS_dropEndTrim : ∀ l : List Char, okWS l = true → okWS (dropEndTrim l) = true
  | [], h => h
  | c :: rest, h => by
    have hr := okWS_dropEndTrim rest (okWS_cons_imp h)
    obtain ⟨h1, h2⟩ := okWS_cons_parts h
    show okWS (if (dropEndTrim rest).isEmpty && isTrimChar c then []
      else c :: dropEndTrim rest) = true
    by_cases hif : ((dropEndTrim rest).isEmpty && isTrimChar c) = true
    · rw [if_pos hif]
      rfl
    · rw [if_neg hif]
      refine okWS_build h1 ?_ hr
      rintro ⟨hc, hh⟩
      cases rest with
      | nil => simp [dropEndTrim, headIs] at hh
      | cons x xs =>
        rcases dropEndTrim_shape x xs with he | ⟨ys, he⟩
        · rw [he] at hh; simp [headIs] at hh
        · rw [he] at hh
          simp only [headIs] at hh
          exact h2 ⟨hc, by simp [headIs, hh]⟩

theorem okWS_jsTrim (l : List Char) (h : okWS l = true) : okWS (jsTrim l) = true :=
  okWS_dropEndTrim _ (okWS_dropWhile _ _ h)

theorem goWS_inv : ∀ l : List Char,
    okWS (goWS false l) = true ∧ okWS (goWS true l) = true ∧
    (∀ c t, goWS true l = c :: t → isHWS c = false)
  | [] => ⟨rfl, rfl, by intro c t h; simp [goWS] at h⟩
  | c :: rest => by
    obtain ⟨ihF, ihT, ihH⟩ := goWS_inv rest
    by_cases hc : isHWS c = true
    · have hT : goWS true (c :: rest) = goWS true rest := by simp [goWS, hc]
      have hF : goWS false (c :: rest) = ' ' :: goWS true rest := by simp [goWS, hc]
      refine ⟨?_, by rw [hT]; exact ihT, by rw [hT]; exact ihH⟩
      rw [hF]
      refine okWS_build (by decide) ?_ ihT
      rintro ⟨-, hh⟩
      cases he : goWS true rest with
      | nil => rw [he] at hh; simp [headIs] at hh
      | cons d t =>
        rw [he] at hh
        have := ihH d t he
        simp only [headIs] at hh
        have hd : d = ' ' := of_decide_eq_true hh
        subst hd
        simp [isHWS] at this
    · have hT : goWS true (c :: rest) = c :: goWS false rest := by simp [goWS, hc]
      have hF : goWS false (c :: rest) = c :: goWS false rest := by simp [goWS, hc]
      have hcs : ¬ c = ' ' := by
        intro he
        subst he
        simp [isHWS] at hc
      have hct : ¬ c = '\t' := by
        intro he
        subst he
        simp [isHWS] at hc
      have hok : okWS (c :: goWS false rest) = true :=
        okWS_build hct (fun hpair => hcs hpair.1) ihF
      refine ⟨by rw [hF]; exact hok, by rw [hT]; exact hok, ?_⟩
      intro d t h
      rw [hT] at h
      injection h with h1 _
      subst h1
      simpa using hc

theorem okWS_collapseWS (l : List Char) : okWS (collapseWS l) = true :=
  (goWS_inv l).1

theorem linesAux_head_agree (r : List Char) :
    (linesAux r).1 = [] ∨ ∃ x xs t, r = x :: xs ∧ ¬ x = '\n' ∧ (linesAux r).1 = x :: t := by
  cases r with
  | nil => left; rfl
  | cons x xs =>
    by_cases hx : x = '\n'
    · left; simp [linesAux, hx]
    · right
      exact ⟨x, xs, (linesAux xs).1, rfl, hx, by simp [linesAux, hx]⟩

theorem okWS_linesAux : ∀ l : List Char, okWS l = true →
    (okWS (linesAux l).1 = true ∧ ∀ x ∈ (linesAux l).2, okWS x = true)
  | [], _ => ⟨rfl, by simp [linesAux]⟩
  | c :: r, h => by
    obtain ⟨ih1, ih2⟩ := okWS_linesAux r (okWS_cons_imp h)
    obtain ⟨h1, h2⟩ := okWS_cons_parts h
    by_cases hc : c = '\n'
    · subst hc
      have hfst : (linesAux ('\n' :: r)).1 = [] := by simp [linesAux]
      have hsnd : (linesAux ('\n' :: r)).2 = (linesAux r).1 :: (linesAux r).2 := by
        simp [linesAux]
      constructor
      · rw [hfst]; rfl
      · intro x hx
        rw [hsnd] at hx
        rcases List.mem_cons.mp hx with hx | hx
        · subst hx; exact ih1
        · exact ih2 x hx
    · have hfst : (linesAux (c :: r)).1 = c :: (linesAux r).1 := by simp [linesAux, hc]
      have hsnd : (linesAux (c :: r)).2 = (linesAux r).2 := by simp [linesAux, hc]
      constructor
      · rw [hfst]
        refine okWS_build h1 ?_ ih1
        rintro ⟨hcs, hh⟩
        rcases linesAux_head_agree r with he | ⟨x, xs, t, hr, hx, he⟩
        · rw [he] at hh; simp [headIs] at hh
        · rw [he] at hh
          simp only [headIs] at hh
          refine h2 ⟨hcs, ?_⟩
          rw [hr]
          simpa [headIs] using hh
      · intro x hx
        rw [hsnd] at hx
        exact ih2 x hx

theorem okWS_splitLines (l : List Char) (h : okWS l = true) :
    ∀ x ∈ splitLines l, okWS x = true := by
  intro x hx
  obtain ⟨h1, h2⟩ := okWS_linesAux l h
  rcases List.mem_cons.mp hx with hx | hx
  · subst hx; exact h1
  · exact h2 x hx

theorem okWS_append_nl : ∀ (a w : List Char), okWS a = true → okWS w = true →
    okWS (a ++ '\n' :: w) = true
  | [], w, _, hw => by
    refine okWS_build (by decide) ?_ hw
    rintro ⟨hc, -⟩
    simp at hc
  | c :: a', w, ha, hw => by
    obtain ⟨h1, h2⟩ := okWS_cons_parts ha
    show okWS (c :: (a' ++ '\n' :: w)) = true
    refine okWS_build h1 ?_ (okWS_append_nl a' w (okWS_cons_imp ha) hw)
    rintro ⟨hcs, hh⟩
    cases a' with
    | nil => simp [headIs] at hh
    | cons d a'' =>
      refine h2 ⟨hcs, ?_⟩
      simpa [headIs] using hh

theorem okWS_joinNL : ∀ L : List (List Char), (∀ l ∈ L, okWS l = true) →
    okWS (joinNL L) = true
  | [], _ => rfl
  | [a], h => h a (by simp)
  | a :: b :: t, h => by
    show okWS (a ++ '\n' :: joinNL (b :: t)) = true
    exact okWS_append_nl a _ (h a (by simp))
      (okWS_joinNL (b :: t) (fun l hl => h l (by simp [List.mem_cons] at hl ⊢; tauto)))

theorem trimL_head_false : ∀ (l : List Char) (c : Char) (t : List Char),
    trimL l = c :: t → isTrimChar c = false
  | [], c, t, h => by simp [trimL] at h
  | x :: xs, c, t, h => by
    by_cases hx : isTrimChar x = true
    · rw [trimL, List.dropWhile_cons_of_pos hx] at h
      exact trimL_head_false xs c t h
    · rw [trimL, List.dropWhile_cons_of_neg hx] at h
      injection h with h1 _
      subst h1
      simpa using hx

theorem trimL_cons_head_false (c : Char) (t : List Char) (h : trimL (c :: t) = c :: t) :
    isTrimChar c = false :=
  trimL_head_false (c :: t) c t h

theorem head_false_trimL : ∀ (l : List Char),
    (∀ c t, l = c :: t → isTrimChar c = false) → trimL l = l
  | [], _ => rfl
  | c :: t, h => by
    rw [trimL, List.dropWhile_cons_of_neg (by simp [h c t rfl])]

theorem dropEndTrim_cons_eq (c : Char) (rest : List Char) :
    dropEndTrim (c :: rest)
      = (if (dropEndTrim rest).isEmpty && isTrimChar c then [] else c :: dropEndTrim rest) :=
  rfl

theorem dropEndTrim_idem : ∀ l : List Char, dropEndTrim (dropEndTrim l) = dropEndTrim l
  | [] => rfl
  | c :: rest => by
    rw [dropEndTrim_cons_eq]
    by_cases hif : ((dropEndTrim rest).isEmpty && isTrimChar c) = true
    · rw [if_pos hif]
      rfl
    · rw [if_neg hif]
      rw [dropEndTrim_cons_eq, dropEndTrim_idem rest]
      rw [if_neg hif]

theorem jsTrim_head_false (l : List Char) (c : Char) (t : List Char)
    (h : jsTrim l = c :: t) : isTrimChar c = false := by
  rw [jsTrim] at h
  cases he : trimL l with
  | nil => rw [he] at h; simp [dropEndTrim] at h
  | cons x xs =>
    rw [he] at h
    rcases dropEndTrim_shape x xs with hs | ⟨ys, hs⟩
    · rw [hs] at h; exact absurd h (by simp)
    · rw [hs] at h
      injection h with h1 _
      subst h1
      exact trimL_head_false l _ xs he

theorem trimL_jsTrim (l : List Char) : trimL (jsTrim l) = jsTrim l :=
  head_false_trimL _ (fun c t h => jsTrim_head_false l c t h)

theorem jsTrim_idem (l : List Char) : jsTrim (jsTrim l) = jsTrim l := by
  conv_lhs => rw [jsTrim, trimL_jsTrim]
  rw [jsTrim, dropEndTrim_idem]

theorem trimL_of_trimFix (l : List Char) (h : jsTrim l = l) : trimL l = l := by
  conv_lhs => rw [← h]
  rw [trimL_jsTrim, h]

theorem dropEndTrim_of_trimFix (l : List Char) (h : jsTrim l = l) : dropEndTrim l = l := by
  conv_lhs => rw [← h, jsTrim, dropEndTrim_idem]
  exact h

theorem trimL_joinNL : ∀ M : List (List Char), (∀ l ∈ M, jsTrim l = l) →
    trimL (joinNL M) = joinNL (M.dropWhile List.isEmpty)
  | [], _ => rfl
  | a :: rest, h => by
    have ha := h a (by simp)
    cases hae : a with
    | nil =>
      cases rest with
      | nil => rfl
      | cons b u =>
        show trimL ([] ++ '\n' :: joinNL (b :: u)) = _
        rw [List.nil_append, trimL, List.dropWhile_cons_of_pos (by decide)]
        rw [← trimL]
        rw [trimL_joinNL (b :: u) (fun l hl => h l (by simp [hl]))]
        rfl
    | cons c t =>
      have hhead : isTrimChar c = false := by
        refine trimL_cons_head_false c t ?_
        rw [← hae]
        exact trimL_of_trimFix a ha
      have hkeep : List.dropWhile List.isEmpty ((c :: t) :: rest) = (c :: t) :: rest := by
        rw [List.dropWhile_cons_of_neg (by simp)]
      cases rest with
      | nil =>
        rw [hkeep]
        show trimL (c :: t) = c :: t
        rw [trimL, List.dropWhile_cons_of_neg (by simp [hhead])]
      | cons b u =>
        rw [hkeep]
        show trimL ((c :: t) ++ '\n' :: joinNL (b :: u)) = _
        rw [List.cons_append, trimL, List.dropWhile_cons_of_neg (by simp [hhead])]
        rfl

theorem dropEndTrim_append : ∀ x y : List Char,
    dropEndTrim (x ++ y)
      = if dropEndTrim y = [] then dropEndTrim x else x ++ dropEndTrim y
  | [], y => by
    by_cases hy : dropEndTrim y = []
    · rw [if_pos hy, List.nil_append, hy]
      rfl
    · rw [if_neg hy, List.nil_append, List.nil_append]
  | c :: x', y => by
    show dropEndTrim (c :: (x' ++ y)) = _
    rw [dropEndTrim_cons_eq, dropEndTrim_append x' y]
    by_cases hy : dropEndTrim y = []
    · rw [if_pos hy, if_pos hy]
      rfl
    · rw [if_neg hy, if_neg hy]
      have hne : (x' ++ dropEndTrim y).isEmpty = false := by
        cases hde : dropEndTrim y with
        | nil => exact absurd hde hy
        | cons d ds => cases x' <;> rfl
      rw [hne]
      simp

theorem joinNL_eq_nil : ∀ L : List (List Char), joinNL L = [] → L = [] ∨ L = [[]]
  | [], _ => Or.inl rfl
  | [a], h => by
    right
    rw [show joinNL [a] = a from rfl] at h
    rw [h]
  | a :: b :: t, h => by
    rw [show joinNL (a :: b :: t) = a ++ '\n' :: joinNL (b :: t) from rfl] at h
    rcases List.append_eq_nil.mp h with ⟨-, h2⟩
    exact absurd h2 (by simp)

theorem dropEndEmpty_ne_single : ∀ z : List (List Char), dropEndEmpty z ≠ [[]]
  | [] => by simp [dropEndEmpty]
  | a :: rest => by
    show (if (dropEndEmpty rest).isEmpty && a.isEmpty then [] else a :: dropEndEmpty rest)
      ≠ [[]]
    by_cases hif : ((dropEndEmpty rest).isEmpty && a.isEmpty) = true
    · rw [if_pos hif]; simp
    · rw [if_neg hif]
      intro h
      injection h with h1 h2
      subst h1
      rw [h2] at hif
      simp at hif

theorem dropEndTrim_joinNL : ∀ M : List (List Char), (∀ l ∈ M, jsTrim l = l) →
    dropEndTrim (joinNL M) = joinNL (dropEndEmpty M)
  | [], _ => rfl
  | a :: rest, h => by
    have ha := h a (by simp)
    cases rest with
    | nil =>
      show dropEndTrim (joinNL [a]) = joinNL (dropEndEmpty [a])
      rw [show joinNL [a] = a from rfl, dropEndTrim_of_trimFix a ha]
      show a = joinNL (if ([] : List (List Char)).isEmpty && a.isEmpty then [] else [a])
      by_cases hae : a.isEmpty = true
      · rw [show (([] : List (List Char)).isEmpty && a.isEmpty) = a.isEmpty from rfl, hae]
        simp only [if_true]
        rw [List.isEmpty_iff.mp hae]
        rfl
      · rw [show (([] : List (List Char)).isEmpty && a.isEmpty) = a.isEmpty from rfl,
          if_neg hae]
        rfl
    | cons b u =>
      have ih := dropEndTrim_joinNL (b :: u) (fun l hl => h l (by simp [hl]))
      show dropEndTrim (a ++ '\n' :: joinNL (b :: u)) = _
      rw [dropEndTrim_append]
      have hy : dropEndTrim ('\n' :: joinNL (b :: u))
          = (if (dropEndTrim (joinNL (b :: u))).isEmpty && isTrimChar '\n' then []
              else '\n' :: dropEndTrim (joinNL (b :: u))) := rfl
      by_cases hk : dropEndEmpty (b :: u) = []
      · have hdk : dropEndTrim (joinNL (b :: u)) = [] := by rw [ih, hk]; rfl
        have hyx : dropEndTrim ('\n' :: joinNL (b :: u)) = [] := by
          rw [hy, hdk]
          rfl
        rw [if_pos hyx, dropEndTrim_of_trimFix a ha]
        show a = joinNL (dropEndEmpty (a :: b :: u))
        rw [show dropEndEmpty (a :: b :: u)
          = (if (dropEndEmpty (b :: u)).isEmpty && a.isEmpty then []
              else a :: dropEndEmpty (b :: u)) from rfl, hk]
        by_cases hae : a.isEmpty = true
        · simp only [List.isEmpty_nil, Bool.true_and, hae, if_true]
          rw [List.isEmpty_iff.mp hae]
          rfl
        · simp only [List.isEmpty_nil, Bool.true_and, hae, Bool.false_eq_true, if_false]
          rfl
      · obtain ⟨m, ms, hms⟩ : ∃ m ms, dropEndEmpty (b :: u) = m :: ms := by
          cases hde : dropEndEmpty (b :: u) with
          | nil => exact absurd hde hk
          | cons m ms => exact ⟨m, ms, rfl⟩
        have hdk : dropEndTrim (joinNL (b :: u)) ≠ [] := by
          rw [ih, hms]
          intro hnil
          rcases joinNL_eq_nil (m :: ms) hnil with h1 | h1
          · simp at h1
          · rw [← hms] at h1
            exact dropEndEmpty_ne_single (b :: u) h1
        have hyx : dropEndTrim ('\n' :: joinNL (b :: u))
            = '\n' :: dropEndTrim (joinNL (b :: u)) := by
          rw [hy]
          have : (dropEndTrim (joinNL (b :: u))).isEmpty = false := by
            cases hde : dropEndTrim (joinNL (b :: u)) with
            | nil => exact absurd hde hdk
            | cons d ds => rfl
          rw [this]
          rfl
        rw [if_neg (by rw [hyx]; simp), hyx, ih, hms]
        show a ++ '\n' :: joinNL (m :: ms) = joinNL (dropEndEmpty (a :: b :: u))
        rw [show dropEndEmpty (a :: b :: u)
          = (if (dropEndEmpty (b :: u)).isEmpty && a.isEmpty then []
              else a :: dropEndEmpty (b :: u)) from rfl, hms]
        rfl

theorem mem_dropEndTrim : ∀ (l : List Char) (c : Char), c ∈ dropEndTrim l → c ∈ l
  | [], c, h => h
  | x :: rest, c, h => by
    rw [dropEndTrim_cons_eq] at h
    by_cases hif : ((dropEndTrim rest).isEmpty && isTrimChar x) = true
    · rw [if_pos hif] at h
      simp at h
    · rw [if_neg hif] at h
      rcases List.mem_cons.mp h with h | h
      · subst h; simp
      · exact List.mem_cons_of_mem x (mem_dropEndTrim rest c h)

theorem mem_jsTrim (l : List Char) (c : Char) (h : c ∈ jsTrim l) : c ∈ l :=
  (List.dropWhile_sublist isTrimChar).subset (mem_dropEndTrim _ c h)

theorem mem_dropEndEmpty : ∀ (z : List (List Char)) (x : List Char),
    x ∈ dropEndEmpty z → x ∈ z
  | [], x, h => h
  | a :: rest, x, h => by
    rw [show dropEndEmpty (a :: rest)
      = (if (dropEndEmpty rest).isEmpty && a.isEmpty then []
          else a :: dropEndEmpty rest) from rfl] at h
    by_cases hif : ((dropEndEmpty rest).isEmpty && a.isEmpty) = true
    · rw [if_pos hif] at h
      simp at h
    · rw [if_neg hif] at h
      rcases List.mem_cons.mp h with h | h
      · subst h; simp
      · exact List.mem_cons_of_mem a (mem_dropEndEmpty rest x h)

theorem cleanContent_lines_trimmed (s : String) :
    ∀ l ∈ splitLines (cleanContent s).toList, jsTrim l = l := by
  intro l hl
  have hM : ∀ m ∈ (splitLines (collapseWS (collapseNL s.toList))).map jsTrim,
      jsTrim m = m := by
    intro m hm
    obtain ⟨m0, hm0, rfl⟩ := List.mem_map.mp hm
    exact jsTrim_idem m0
  set M : List (List Char) := (splitLines (collapseWS (collapseNL s.toList))).map jsTrim
    with hMdef
  have hclean : (cleanContent s).toList = jsTrim (joinNL M) := rfl
  have hM1 : ∀ m ∈ M.dropWhile List.isEmpty, jsTrim m = m := fun m hm =>
    hM m ((List.dropWhile_sublist List.isEmpty).subset hm)
  have heq : jsTrim (joinNL M) = joinNL (dropEndEmpty (M.dropWhile List.isEmpty)) := by
    rw [jsTrim, trimL_joinNL M hM, dropEndTrim_joinNL _ hM1]
  set M2 : List (List Char) := dropEndEmpty (M.dropWhile List.isEmpty) with hM2def
  have hM2 : ∀ m ∈ M2, jsTrim m = m := fun m hm =>
    hM1 m (mem_dropEndEmpty _ m hm)
  have hM2nl : ∀ m ∈ M2, ∀ c ∈ m, c ≠ '\n' := by
    intro m hm c hc
    have hmM : m ∈ M := (List.dropWhile_sublist List.isEmpty).subset
      (mem_dropEndEmpty _ m hm)
    obtain ⟨m0, hm0, rfl⟩ := List.mem_map.mp hmM
    exact splitLines_no_nl _ m0 hm0 c (mem_jsTrim m0 c hc)
  rw [hclean, heq] at hl
  cases hM2e : M2 with
  | nil =>
    rw [hM2e] at hl
    simp only [joinNL] at hl
    simp only [splitLines, linesAux] at hl
    rcases List.mem_cons.mp hl with h | h
    · subst h; rfl
    · simp at h
  | cons m ms =>
    rw [hM2e] at hl
    rw [splitLines_joinNL (m :: ms) (by simp) (by rw [← hM2e]; exact hM2nl)] at hl
    exact hM2 l (by rw [hM2e]; exact hl)

/-- C8 counterexample: on the input `"a\n \n \n \nb"` (newlines separated
by whitespace-only lines) `cleanContent` returns `"a\n\n\n\nb"`, which
contains a run of four newlines — trimming the whitespace-only lines
reintroduces a newline run of length 3+ in the output, so the claimed
output property fails. -/
theorem clean_content_counterexample :
    cleanContent "a\n \n \n \nb" = "a\n\n\n\nb" ∧
    hasNNN (cleanContent "a\n \n \n \nb").toList = true := by
  refine ⟨by decide, by decide⟩

/-- C8 (amended): `cleanContent` is total and maps the empty string to
the empty string; its output contains no tab and no two adjacent spaces
(horizontal-whitespace runs are collapsed to single spaces); every line
of the output is fully trimmed; and runs of 3 or more newlines are
collapsed to exactly 2 by the newline-collapsing stage (the first
`replace`) — although, as the counterexample shows, per-line trimming of
whitespace-only lines can reintroduce longer newline runs in the final
output. -/
theorem clean_content_amended :
    cleanContent "" = "" ∧
    (∀ s : String, okWS (cleanContent s).toList = true) ∧
    (∀ s : String, ∀ l ∈ splitLines (cleanContent s).toList, jsTrim l = l) ∧
    (∀ s : String, hasNNN (collapseNL s.toList) = false) := by
  refine ⟨by decide, ?_, cleanContent_lines_trimmed, fun s => hasNNN_collapseNL s.toList⟩
  intro s
  show okWS (cleanContentL s.toList) = true
  rw [cleanContentL]
  refine okWS_jsTrim _ (okWS_joinNL _ ?_)
  intro l hl
  obtain ⟨l0, hl0, rfl⟩ := List.mem_map.mp hl
  exact okWS_jsTrim l0 (okWS_splitLines _ (okWS_collapseWS _) l0 hl0)

/-- C8 witness: the line-trimming conjunct of the amended theorem at a
concrete input. -/
theorem clean_content_amended_witness :
    jsTrim " a\tb ".toList ≠ " a\tb ".toList ∧
    jsTrim (splitLines (cleanContent " a\tb ").toList).headI
      = (splitLines (cleanContent " a\tb ").toList).headI :=
  ⟨by decide, clean_content_amended.2.2.1 " a\tb " _ (by decide)⟩
